import Mathlib

/-!
Shallow embedding of the sync-enabled quote generator
(src/dom-manipulation/script.js) and proofs about its reconciliation
engine: the merge pass (`mergeServerData`, `detectConflicts`), the sync
cycle (`syncWithServer`), conflict resolution (`applyConflictChoice`),
outbound replication, bulk import and the remote fetch mapping.

Records, conflicts and the application state are modelled structurally;
the JavaScript `Map` (insertion ordered, `set` replaces in place or
appends) is modelled by an association list with a recursive `mapSet`.
Timestamps (`nowIso()`) and remote responses are passed in as explicit
parameters, since they are inputs from the environment.
-/

/-- A quote record: `{ id, text, category, updatedAt, source }` where
`source` is the provenance marker, either `"local"` or `"server"`
(the spec's `origin`). -/
structure Quote where
  id : String
  text : String
  category : String
  updatedAt : String
  source : String
deriving DecidableEq, Repr

/-- A conflict ledger entry: `{ id, local, server }` in the source;
holds copies of both versions at detection time. -/
structure Conflict where
  id : String
  localVer : Quote
  serverVer : Quote
deriving DecidableEq, Repr

/-- The observable notifications emitted by the sync and resolution code
(`showNotification` calls), abstracted from their display strings. -/
inductive Notification where
  | syncError
  | syncComplete
  | conflictsDetected (count : Nat)
  | conflictResolved
deriving DecidableEq, Repr

/-- The mutable module state of script.js: the `quotes` array, the
`conflicts` array, and the persisted copy written by `saveLocalQuotes()`
(the parsed content of `localStorage[LS_KEY]`). -/
structure AppState where
  quotes : List Quote
  conflicts : List Conflict
  stored : List Quote
deriving DecidableEq, Repr

/-! ### JavaScript `Map` model

`new Map(entries)` and `map.set` keep insertion order: setting an existing
key replaces its value in place, a fresh key is appended at the end. -/

abbrev QMap := List (String × Quote)

/-- `map.set(k, v)` on a JS `Map`: replace in place if the key is present,
append otherwise. -/
def mapSet (m : QMap) (k : String) (v : Quote) : QMap :=
  match m with
  | [] => [(k, v)]
  | p :: ps => if p.1 == k then (k, v) :: ps else p :: mapSet ps k v

/-- `map.has(k)`. -/
def mapHas (m : QMap) (k : String) : Bool :=
  m.any (fun p => p.1 == k)

/-- `map.get(k)` (as an `Option`; the source only calls it after `has`). -/
def mapGet (m : QMap) (k : String) : Option Quote :=
  (m.find? (fun p => p.1 == k)).map (fun p => p.2)

/-- `new Map(list.map(q => [q.id, q]))`. -/
def mapOfList (l : List Quote) : QMap :=
  l.foldl (fun m q => mapSet m q.id q) []

/-- `Array.from(map.values())`. -/
def mapValues (m : QMap) : List Quote :=
  m.map (fun p => p.2)

/-! ### Merge and conflict logic (script.js lines 134-188) -/

/-- One iteration of `detectConflicts`'s `serverById.forEach((s, id) => ...)`:
if the id exists locally and text or category differ, push a conflict entry. -/
def detectStep (localById : QMap) (det : List Conflict) (p : String × Quote) :
    List Conflict :=
  if mapHas localById p.1 then
    match mapGet localById p.1 with
    | some l =>
        if l.text != p.2.text || l.category != p.2.category then
          det ++ [⟨p.1, l, p.2⟩]
        else det
    | none => det
  else det

/-- `detectConflicts(serverQuotes)`: build maps by id and collect, for every
id present in both, an entry when `text` or `category` differ. -/
def detectConflicts (serverQuotes quotes : List Quote) : List Conflict :=
  let localById := mapOfList quotes
  let serverById := mapOfList serverQuotes
  serverById.foldl (detectStep localById) []

/-- One iteration of `mergeServerData`'s `serverQuotes.forEach(sq => ...)`:
if the id is already in the (evolving) map and differs, push a conflict;
in every case overwrite with `{ ...sq, source: 'server' }`. -/
def mergeStep (acc : QMap × List Conflict) (sq : Quote) : QMap × List Conflict :=
  if mapHas acc.1 sq.id then
    match mapGet acc.1 sq.id with
    | some l =>
        if l.text != sq.text || l.category != sq.category then
          (mapSet acc.1 sq.id { sq with source := "server" },
           acc.2 ++ [⟨sq.id, l, sq⟩])
        else (mapSet acc.1 sq.id { sq with source := "server" }, acc.2)
    | none => (mapSet acc.1 sq.id { sq with source := "server" }, acc.2)
  else (mapSet acc.1 sq.id { sq with source := "server" }, acc.2)

/-- `mergeServerData(serverQuotes)` acting on the `quotes` and `conflicts`
globals: (1) replace or add server items into the id-indexed local map,
(2) re-set local items the server does not have, (3) rebuild the quotes
array from the map values.  Returns the new `quotes` and `conflicts`. -/
def mergeServerData (serverQuotes quotes : List Quote) (conflicts : List Conflict) :
    List Quote × List Conflict :=
  let serverById := mapOfList serverQuotes
  let step1 := serverQuotes.foldl mergeStep (mapOfList quotes, conflicts)
  let step2 := quotes.foldl
    (fun m l => if !(mapHas serverById l.id) then mapSet m l.id l else m) step1.1
  (mapValues step2, step1.2)

/-! ### Conflict resolution (script.js lines 256-281) -/

/-- `quotes.findIndex(q => q.id === k)` followed by `quotes[idx] = v` when
found: replace the first record with the given id, no-op otherwise. -/
def replaceFirstById (qs : List Quote) (k : String) (v : Quote) : List Quote :=
  match qs with
  | [] => []
  | q :: rest => if q.id == k then v :: rest else q :: replaceFirstById rest k v

/-- `applyConflictChoice(conflictIndex, choice)`: `conflicts[conflictIndex]`
missing means a silent `return`; choice `'server'` just removes the entry
(and saves); choice `'local'` writes `{ ...c.local, source: 'local',
updatedAt: nowIso() }` over the record with id `c.id`, or pushes it when no
such record exists, then removes the entry.  Returns the new state together
with the notifications shown. -/
def applyConflictChoice (conflictIndex : Nat) (choice : String) (now : String)
    (s : AppState) : AppState × List Notification :=
  match s.conflicts[conflictIndex]? with
  | none => (s, [])
  | some c =>
    if choice == "server" then
      ({ s with conflicts := s.conflicts.eraseIdx conflictIndex,
                stored := s.quotes },
       [Notification.conflictResolved])
    else if choice == "local" then
      let restored : Quote := { c.localVer with source := "local", updatedAt := now }
      let quotes2 :=
        if s.quotes.any (fun q => q.id == c.id) then
          replaceFirstById s.quotes c.id restored
        else s.quotes ++ [restored]
      ({ quotes := quotes2, conflicts := s.conflicts.eraseIdx conflictIndex,
         stored := quotes2 },
       [Notification.conflictResolved])
    else (s, [])

/-! ### Remote gateway (script.js lines 99-129)

Network responses are modelled as explicit inputs: the fetched post list
for `fetchServerQuotes`, and for `postLocalQuoteToServer` the id the remote
assigns (`String(created.id)`), or `none` when the request fails. -/

/-- A JSONPlaceholder post as used by `fetchServerQuotes`. -/
structure Post where
  id : Nat
  title : String
  userId : Nat
deriving DecidableEq, Repr

/-- `s.trim()` on the character list: a kernel-computable model of
`String.trim` (whitespace code points stripped from both ends). -/
def strTrim (s : String) : String :=
  ⟨(((s.data.dropWhile Char.isWhitespace).reverse).dropWhile
      Char.isWhitespace).reverse⟩

/-- The mapping applied to each post inside `fetchServerQuotes`. -/
def quoteOfPost (now : String) (p : Post) : Quote :=
  { id := toString p.id
    text := strTrim p.title
    category := "User " ++ toString p.userId
    updatedAt := now
    source := "server" }

/-- `fetchServerQuotes` on a successful response: map the first 20 posts
(`posts.slice(0, 20)`) to quote records. -/
def fetchServerQuotes (posts : List Post) (now : String) : List Quote :=
  (posts.take 20).map (quoteOfPost now)

/-- The record `postLocalQuoteToServer` builds from a successful response:
the remote-assigned id, the submitted text and category, a fresh timestamp,
and `source: 'server'`. -/
def postLocalQuoteToServer (localQuote : Quote) (createdId : String) (now : String) :
    Quote :=
  { id := createdId
    text := localQuote.text
    category := localQuote.category
    updatedAt := now
    source := "server" }

/-! ### Sync cycle (script.js lines 286-327) -/

/-- `s.startsWith(pre)` on the character lists: a kernel-computable model
of `String.startsWith` (same semantics: the code points of `pre` are an
initial segment of those of `s`). -/
def strStartsWith (s pre : String) : Bool :=
  pre.data.isPrefixOf s.data

/-- `quotes.filter(q => q.id && q.id.startsWith('local-'))`: the records
selected for outbound replication (an empty id is falsy and also fails the
prefix test, so the conjunct adds nothing). -/
def localOnlyOf (quotes : List Quote) : List Quote :=
  quotes.filter (fun q => strStartsWith q.id "local-")

/-- One iteration of the replication loop, on `(quotes, stored)`: on a
successful post, replace the record having the old local id with
`{ ...serverVersion, source: 'server' }` and persist; on a thrown post the
error is caught and the state is left as is. -/
def replicateOne (post : String → Option String) (now : String)
    (acc : List Quote × List Quote) (lq : Quote) : List Quote × List Quote :=
  match post lq.id with
  | some createdId =>
      let serverVersion := postLocalQuoteToServer lq createdId now
      let qs := replaceFirstById acc.1 lq.id { serverVersion with source := "server" }
      (qs, qs)
  | none => acc

/-- The replicating stage of `syncWithServer`: iterate the replication loop
over the snapshot of local-prefixed records. -/
def syncReplicate (post : String → Option String) (now : String) (s : AppState) :
    AppState :=
  let localOnly := localOnlyOf s.quotes
  let r := localOnly.foldl (replicateOne post now) (s.quotes, s.stored)
  { s with quotes := r.1, stored := r.2 }

/-- The fetch-and-merge stage of `syncWithServer` once the fetch succeeded:
detect conflicts, concatenate them onto the ledger, run `mergeServerData`
(which records its own conflicts and saves), and emit the conflict or
completion notification. -/
def syncFetchMerge (serverQuotesRaw : List Quote) (s : AppState) :
    AppState × List Notification :=
  let detected := detectConflicts serverQuotesRaw s.quotes
  let conflicts1 := if detected.length != 0 then s.conflicts ++ detected else s.conflicts
  let merged := mergeServerData serverQuotesRaw s.quotes conflicts1
  let notifs := if detected.length != 0 then
      [Notification.conflictsDetected merged.2.length]
    else [Notification.syncComplete]
  ({ quotes := merged.1, conflicts := merged.2, stored := merged.1 }, notifs)

/-- A whole `syncWithServer()` call: a failed fetch (`fetchServerQuotes`
threw, transport error or malformed payload) jumps to the catch block,
which only shows the sync-error notification; otherwise merge then
replicate. -/
def syncWithServer (fetchResult : Option (List Quote))
    (post : String → Option String) (now : String) (s : AppState) :
    AppState × List Notification :=
  match fetchResult with
  | none => (s, [Notification.syncError])
  | some raw =>
      let r := syncFetchMerge raw s
      (syncReplicate post now r.1, r.2)

/-! ### Trigger surface (script.js lines 492-496 and 519-525)

Both the manual `Sync Now` click handler and the `setInterval` callback
invoke `syncWithServer()` directly; no busy flag or guard of any kind is
consulted, so every trigger starts a cycle, which immediately enters the
fetching step (suspending at `await fetchServerQuotes()`).  We model the
set of in-flight cycles (cycles past Idle) as a list of their phases. -/

inductive CyclePhase where
  | fetching
  | merging
  | replicating
deriving DecidableEq, Repr

/-- What a trigger does in the source: unconditionally start another cycle
(it enters the fetching phase), whatever is already in flight. -/
def triggerSync (active : List CyclePhase) : List CyclePhase :=
  active ++ [CyclePhase.fetching]

/-- Modelled from the spec: the drop policy of section 5 — a trigger
arriving while a cycle is already past Idle is a no-op; from Idle it starts
one cycle.  Stated for comparison with `triggerSync`. -/
def triggerSyncSpec (active : List CyclePhase) : List CyclePhase :=
  if active.isEmpty then [CyclePhase.fetching] else active

/-! ### Import surface (script.js lines 398-428) -/

/-- An element of the parsed import array, keeping exactly what the
validation looks at: `item.text` and `item.category` are recorded as
`some s` when they are strings, `none` otherwise.  A falsy array element
(`null` etc.) is modelled as `none` at the outer `Option`. -/
structure ImportedItem where
  text : Option String
  category : Option String
deriving DecidableEq, Repr

/-- The validation test of the import loop:
`item && typeof item.text === 'string' && typeof item.category === 'string'`. -/
def isStringItem (item : Option ImportedItem) : Bool :=
  match item with
  | some it => it.text.isSome && it.category.isSome
  | none => false

/-- One iteration of `parsed.forEach(item => ...)` on `(quotes, added)`:
an item passing the validation is pushed with a fresh local id (`uidLocal`
is modelled by `mkId` applied to the running count) and trimmed fields,
and the counter is incremented. -/
def importStep (mkId : Nat → String) (now : String)
    (acc : List Quote × Nat) (item : Option ImportedItem) : List Quote × Nat :=
  match item with
  | some it =>
      match it.text, it.category with
      | some t, some c =>
          (acc.1 ++ [{ id := mkId acc.2, text := strTrim t,
                       category := strTrim c,
                       updatedAt := now, source := "local" }],
           acc.2 + 1)
      | _, _ => acc
  | none => acc

/-- The loop body of `importFromJsonFileEvent` after a successful parse of
an array: validate each item, push the accepted ones, and report the count
of accepted items (the `added` counter shown in the notification). -/
def importFromJson (items : List (Option ImportedItem)) (mkId : Nat → String)
    (now : String) (quotes : List Quote) : List Quote × Nat :=
  items.foldl (importStep mkId now) (quotes, 0)

/-! ### Derived notions used by the theorems -/

/-- Id uniqueness: no two records of the collection share an id. -/
def IdsNodup (qs : List Quote) : Prop :=
  (qs.map (fun q => q.id)).Nodup

instance (qs : List Quote) : Decidable (IdsNodup qs) := by
  unfold IdsNodup; infer_instance

/-- Number of records carrying a given id. -/
def countId (qs : List Quote) (k : String) : Nat :=
  (qs.filter (fun q => q.id == k)).length

/-- Number of conflict entries carrying a given id. -/
def countConflictId (cs : List Conflict) (k : String) : Nat :=
  (cs.filter (fun c => c.id == k)).length

/-- Whether id `k` is a conflicting id for snapshot `S` against local
collection `L`: present in both (last occurrence winning, as in the id
maps) with differing `text` or `category`. -/
def conflictAt (S L : List Quote) (k : String) : Bool :=
  match mapGet (mapOfList S) k, mapGet (mapOfList L) k with
  | some sq, some l => l.text != sq.text || l.category != sq.category
  | _, _ => false

/-! ### Basic facts about the map model -/

/-- The keys of the map, in insertion order. -/
def keys (m : QMap) : List String := m.map (fun p => p.1)

/-- Every entry of the map stores a record whose id is its key.  All maps
built by the source satisfy this, since entries are always `[q.id, q]`. -/
def KeysGood (m : QMap) : Prop := ∀ p ∈ m, p.2.id = p.1

theorem mapGet_nil (k : String) : mapGet [] k = none := rfl

theorem mapGet_cons (p : String × Quote) (ps : QMap) (k : String) :
    mapGet (p :: ps) k = if p.1 = k then some p.2 else mapGet ps k := by
  by_cases h : p.1 = k
  · have hb : (p.1 == k) = true := beq_iff_eq.mpr h
    simp [mapGet, List.find?, hb, h]
  · have hb : (p.1 == k) = false := beq_eq_false_iff_ne.mpr h
    simp [mapGet, List.find?, hb, h]

theorem mapSet_nil (k : String) (v : Quote) : mapSet [] k v = [(k, v)] := rfl

theorem mapSet_cons_pos (p : String × Quote) (ps : QMap) (k : String) (v : Quote)
    (h : p.1 = k) : mapSet (p :: ps) k v = (k, v) :: ps := by
  simp [mapSet, beq_iff_eq, h]

theorem mapSet_cons_neg (p : String × Quote) (ps : QMap) (k : String) (v : Quote)
    (h : p.1 ≠ k) : mapSet (p :: ps) k v = p :: mapSet ps k v := by
  simp [mapSet, beq_iff_eq, h]

theorem mapHas_iff (m : QMap) (k : String) : mapHas m k = true ↔ k ∈ keys m := by
  simp [mapHas, List.any_eq_true, beq_iff_eq, keys, List.mem_map]

theorem mapGet_mapSet (m : QMap) (k' k : String) (v : Quote) :
    mapGet (mapSet m k v) k' = if k' = k then some v else mapGet m k' := by
  induction m with
  | nil =>
      rw [mapSet_nil, mapGet_cons, mapGet_nil]
      by_cases h : k' = k
      · simp [h]
      · have h2 : ¬ ((k, v).1 = k') := fun hc => h hc.symm
        simp [h, h2]
  | cons p ps ih =>
      by_cases hpk : p.1 = k
      · rw [mapSet_cons_pos p ps k v hpk, mapGet_cons, mapGet_cons]
        by_cases h : k' = k
        · simp [h, hpk]
        · have h2 : ¬ ((k, v).1 = k') := fun hc => h hc.symm
          have h3 : ¬ (p.1 = k') := by
            rw [hpk]; exact fun hc => h hc.symm
          simp [h, h2, h3]
      · rw [mapSet_cons_neg p ps k v hpk, mapGet_cons, mapGet_cons, ih]
        by_cases hp' : p.1 = k'
        · have hkk : ¬ (k' = k) := fun hc => hpk (hp'.trans hc)
          simp [hp', hkk]
        · simp [hp']

theorem mapGet_eq_none_iff (m : QMap) (k : String) :
    mapGet m k = none ↔ k ∉ keys m := by
  induction m with
  | nil => simp [mapGet_nil, keys]
  | cons p ps ih =>
      rw [mapGet_cons]
      by_cases h : p.1 = k
      · simp [h, keys]
      · simp only [h, if_false, ih, keys, List.map_cons, List.mem_cons]
        constructor
        · intro hk hc
          rcases hc with hc | hc
          · exact h hc.symm
          · exact hk (by simpa [keys] using hc)
        · intro hk hc; exact hk (Or.inr (by simpa [keys] using hc))

theorem mapGet_isSome_iff (m : QMap) (k : String) :
    (mapGet m k).isSome = true ↔ k ∈ keys m := by
  rcases h : mapGet m k with _ | v
  · simpa using (mapGet_eq_none_iff m k).mp h
  · simp only [Option.isSome_some, true_iff]
    by_contra hk
    rw [← mapGet_eq_none_iff m k] at hk
    rw [h] at hk; exact Option.noConfusion hk

theorem keys_mapSet_of_mem (m : QMap) (k : String) (v : Quote) (h : k ∈ keys m) :
    keys (mapSet m k v) = keys m := by
  induction m with
  | nil => simp [keys] at h
  | cons p ps ih =>
      by_cases hpk : p.1 = k
      · rw [mapSet_cons_pos p ps k v hpk]
        simp [keys, hpk]
      · have hk : k ∈ keys ps := by
          simp only [keys, List.map_cons, List.mem_cons] at h
          rcases h with h | h
          · exact absurd h.symm hpk
          · simpa [keys] using h
        rw [mapSet_cons_neg p ps k v hpk]
        simp only [keys, List.map_cons]
        rw [show (mapSet ps k v).map (fun p => p.1) = keys (mapSet ps k v) from rfl,
            ih hk]
        rfl

theorem keys_mapSet_of_not_mem (m : QMap) (k : String) (v : Quote) (h : k ∉ keys m) :
    keys (mapSet m k v) = keys m ++ [k] := by
  induction m with
  | nil => simp [mapSet_nil, keys]
  | cons p ps ih =>
      have hpk : p.1 ≠ k := by
        intro hc; exact h (by simp [keys, hc])
      have hk : k ∉ keys ps := by
        intro hc
        exact h (List.mem_cons_of_mem p.1 hc)
      rw [mapSet_cons_neg p ps k v hpk]
      simp only [keys, List.map_cons, List.cons_append]
      rw [show (mapSet ps k v).map (fun p => p.1) = keys (mapSet ps k v) from rfl,
          ih hk]
      rfl

theorem keysNodup_mapSet (m : QMap) (k : String) (v : Quote)
    (h : (keys m).Nodup) : (keys (mapSet m k v)).Nodup := by
  by_cases hk : k ∈ keys m
  · rw [keys_mapSet_of_mem m k v hk]; exact h
  · rw [keys_mapSet_of_not_mem m k v hk]
    simp [List.nodup_append, h, hk]

theorem keysGood_mapSet (m : QMap) (k : String) (v : Quote)
    (hg : KeysGood m) (hv : v.id = k) : KeysGood (mapSet m k v) := by
  induction m with
  | nil =>
      intro p hp; rw [mapSet_nil] at hp
      simp only [List.mem_singleton] at hp; subst hp; exact hv
  | cons q qs ih =>
      intro p hp
      by_cases hqk : q.1 = k
      · rw [mapSet_cons_pos q qs k v hqk] at hp
        rcases List.mem_cons.mp hp with h1 | hp
        · rw [h1]; exact hv
        · exact hg p (List.mem_cons_of_mem q hp)
      · rw [mapSet_cons_neg q qs k v hqk] at hp
        rcases List.mem_cons.mp hp with h1 | hp
        · rw [h1]; exact hg q (List.mem_cons_self q qs)
        · exact ih (fun r hr => hg r (List.mem_cons_of_mem q hr)) p hp

theorem keys_nodup_tail (p : String × Quote) (ps : QMap)
    (h : (keys (p :: ps)).Nodup) : (keys ps).Nodup := by
  simp only [keys, List.map_cons, List.nodup_cons] at h
  exact h.2

theorem mapGet_eq_some_of_mem (m : QMap) (k : String) (v : Quote)
    (hn : (keys m).Nodup) (hm : (k, v) ∈ m) : mapGet m k = some v := by
  induction m with
  | nil => simp at hm
  | cons p ps ih =>
      rcases List.mem_cons.mp hm with rfl | hm
      · rw [mapGet_cons]; simp
      · have hk : k ∈ keys ps := by
          simp only [keys, List.mem_map]; exact ⟨(k, v), hm, rfl⟩
        have hpk : p.1 ≠ k := by
          intro hc
          simp only [keys, List.map_cons, List.nodup_cons] at hn
          exact hn.1 (hc ▸ hk)
        rw [mapGet_cons]
        simp only [hpk, if_false]
        exact ih (keys_nodup_tail p ps hn) hm

theorem mem_of_mapGet_eq_some (m : QMap) (k : String) (v : Quote)
    (h : mapGet m k = some v) : (k, v) ∈ m := by
  induction m with
  | nil => simp [mapGet_nil] at h
  | cons p ps ih =>
      rw [mapGet_cons] at h
      by_cases hpk : p.1 = k
      · simp only [hpk, if_true] at h
        have h2 : p.2 = v := by injection h
        have : p = (k, v) := by
          calc p = (p.1, p.2) := rfl
            _ = (k, v) := by rw [hpk, h2]
        rw [← this]; exact List.mem_cons_self p ps
      · simp only [hpk, if_false] at h
        exact List.mem_cons_of_mem p (ih h)

theorem mapSet_self (m : QMap) (k : String) (v : Quote)
    (hn : (keys m).Nodup) (h : mapGet m k = some v) : mapSet m k v = m := by
  induction m with
  | nil => simp [mapGet_nil] at h
  | cons p ps ih =>
      rw [mapGet_cons] at h
      by_cases hpk : p.1 = k
      · simp only [hpk, if_true] at h
        have h2 : p.2 = v := by injection h
        rw [mapSet_cons_pos p ps k v hpk]
        calc (k, v) :: ps = (p.1, p.2) :: ps := by rw [hpk, h2]
          _ = p :: ps := rfl
      · simp only [hpk, if_false] at h
        rw [mapSet_cons_neg p ps k v hpk, ih (keys_nodup_tail p ps hn) h]

/-! ### Characterizing the merge pass -/

/-- The map evolution of merge step 1, conflicts ignored. -/
def applyServer (m : QMap) (S : List Quote) : QMap :=
  S.foldl (fun m sq => mapSet m sq.id { sq with source := "server" }) m

/-- The map evolution of merge step 2. -/
def applyLocal (serverById : QMap) (m : QMap) (L : List Quote) : QMap :=
  L.foldl (fun m l => if !(mapHas serverById l.id) then mapSet m l.id l else m) m

theorem mergeStep_fst (acc : QMap × List Conflict) (sq : Quote) :
    (mergeStep acc sq).1 = mapSet acc.1 sq.id { sq with source := "server" } := by
  unfold mergeStep
  by_cases h : mapHas acc.1 sq.id
  · simp only [h, if_true]
    rcases hg : mapGet acc.1 sq.id with _ | l
    · rfl
    · by_cases hd : (l.text != sq.text || l.category != sq.category) = true
      · simp [hd]
      · simp [hd]
  · simp [h]

theorem foldl_mergeStep_fst (S : List Quote) (m : QMap) (cs : List Conflict) :
    (S.foldl mergeStep (m, cs)).1 = applyServer m S := by
  induction S generalizing m cs with
  | nil => rfl
  | cons sq tl ih =>
      have hstep : mergeStep (m, cs) sq =
          ((mergeStep (m, cs) sq).1, (mergeStep (m, cs) sq).2) := rfl
      rw [List.foldl_cons, hstep, ih, mergeStep_fst]
      rfl

theorem mergeServerData_fst (S L : List Quote) (C : List Conflict) :
    (mergeServerData S L C).1 =
      mapValues (applyLocal (mapOfList S) (applyServer (mapOfList L) S) L) := by
  have h1 : (mergeServerData S L C).1 =
      mapValues (L.foldl
        (fun m l => if !(mapHas (mapOfList S) l.id) then mapSet m l.id l else m)
        (S.foldl mergeStep (mapOfList L, C)).1) := rfl
  rw [h1, foldl_mergeStep_fst]
  rfl

/-- The last element of the list carrying a given id, as the fold that a
MapReduce over the list computes. -/
def lastById (l : List Quote) (k : String) : Option Quote :=
  l.foldl (fun acc q => if q.id == k then some q else acc) none

theorem foldl_lastAux (k : String) (l : List Quote) (a : Option Quote) :
    l.foldl (fun acc q => if q.id == k then some q else acc) a =
      match l.foldl (fun acc q => if q.id == k then some q else acc) none with
      | some x => some x
      | none => a := by
  induction l generalizing a with
  | nil => simp
  | cons q tl ih =>
      rw [List.foldl_cons, List.foldl_cons, ih]
      rw [ih (if q.id == k then some q else none)]
      rcases l2 : tl.foldl (fun acc q => if q.id == k then some q else acc) none with _ | x
      · rw [l2]
        by_cases h : (q.id == k) = true
        · rw [if_pos h, if_pos h]
        · rw [if_neg h, if_neg h]
      · rw [l2]

theorem lastById_cons (q : Quote) (tl : List Quote) (k : String) :
    lastById (q :: tl) k =
      match lastById tl k with
      | some x => some x
      | none => if q.id = k then some q else none := by
  unfold lastById
  rw [List.foldl_cons, foldl_lastAux]
  rcases l2 : tl.foldl (fun acc q => if q.id == k then some q else acc) none with _ | x
  · by_cases h : q.id = k
    · simp [beq_iff_eq, h]
    · simp [beq_iff_eq, h]
  · simp

theorem lastById_mem (l : List Quote) (k : String) (x : Quote)
    (h : lastById l k = some x) : x ∈ l ∧ x.id = k := by
  induction l with
  | nil => simp [lastById] at h
  | cons q tl ih =>
      rw [lastById_cons] at h
      rcases l2 : lastById tl k with _ | y
      · rw [l2] at h
        by_cases hq : q.id = k
        · simp only [hq, if_true] at h
          have : q = x := by injection h
          exact ⟨by rw [← this]; exact List.mem_cons_self q tl, by rw [← this]; exact hq⟩
        · simp [hq] at h
      · rw [l2] at h
        have hx : y = x := by injection h
        rcases ih (hx ▸ l2) with ⟨h1, h2⟩
        exact ⟨List.mem_cons_of_mem q h1, h2⟩

theorem lastById_eq_none_of_not_mem (l : List Quote) (k : String)
    (h : k ∉ l.map (fun q => q.id)) : lastById l k = none := by
  induction l with
  | nil => rfl
  | cons q tl ih =>
      have h1 : q.id ≠ k := by
        intro hc; exact h (by simp [hc])
      have h2 : k ∉ tl.map (fun q => q.id) := by
        intro hc; exact h (List.mem_cons_of_mem q.id hc)
      rw [lastById_cons, ih h2]
      simp [h1]

theorem lastById_isSome_of_mem (l : List Quote) (q : Quote) (h : q ∈ l) :
    (lastById l q.id).isSome = true := by
  induction l with
  | nil => simp at h
  | cons p tl ih =>
      rw [lastById_cons]
      rcases List.mem_cons.mp h with h1 | h1
      · rcases l2 : lastById tl q.id with _ | x
        · simp [← h1]
        · simp
      · rcases l2 : lastById tl q.id with _ | x
        · have := ih h1; rw [l2] at this; simp at this
        · simp

theorem lastById_of_nodup (l : List Quote) (q : Quote)
    (hn : (l.map (fun q => q.id)).Nodup) (h : q ∈ l) : lastById l q.id = some q := by
  induction l with
  | nil => simp at h
  | cons p tl ih =>
      have hn' : (tl.map (fun q => q.id)).Nodup :=
        (List.nodup_cons.mp (by simpa using hn)).2
      have hp : p.id ∉ tl.map (fun q => q.id) :=
        (List.nodup_cons.mp (by simpa using hn)).1
      rw [lastById_cons]
      rcases List.mem_cons.mp h with h1 | h1
      · have : lastById tl q.id = none := by
          apply lastById_eq_none_of_not_mem
          rw [h1]; exact hp
        rw [this, h1]; simp
      · rw [ih hn' h1]

theorem mapGet_applyServer (S : List Quote) (m : QMap) (k : String) :
    mapGet (applyServer m S) k =
      match lastById S k with
      | some x => some { x with source := "server" }
      | none => mapGet m k := by
  induction S generalizing m with
  | nil => rfl
  | cons sq tl ih =>
      unfold applyServer
      rw [List.foldl_cons]
      rw [show (tl.foldl (fun m sq => mapSet m sq.id { sq with source := "server" })
            (mapSet m sq.id { sq with source := "server" })) =
          applyServer (mapSet m sq.id { sq with source := "server" }) tl from rfl]
      rw [ih, lastById_cons]
      rcases l2 : lastById tl k with _ | x
      · rw [mapGet_mapSet]
        by_cases h : k = sq.id
        · simp [h]
        · have h2 : ¬ (sq.id = k) := fun hc => h hc.symm
          simp [h, h2]
      · simp

theorem mapGet_applyLocal_of_server (sb : QMap) (L : List Quote) (m : QMap)
    (k : String) (hk : mapHas sb k = true) :
    mapGet (applyLocal sb m L) k = mapGet m k := by
  induction L generalizing m with
  | nil => rfl
  | cons l tl ih =>
      unfold applyLocal
      rw [List.foldl_cons]
      by_cases h : mapHas sb l.id
      · simp only [h, Bool.not_true, if_false]
        exact ih m
      · simp only [h, Bool.not_false, if_true]
        rw [show (tl.foldl (fun m l => if !(mapHas sb l.id) then mapSet m l.id l else m)
              (mapSet m l.id l)) = applyLocal sb (mapSet m l.id l) tl from rfl]
        rw [ih, mapGet_mapSet]
        have hne : ¬ (k = l.id) := by
          intro hc; rw [hc] at hk; exact h hk
        simp [hne]

theorem keys_applyServer_of_present (S : List Quote) (m : QMap)
    (h : ∀ sq ∈ S, sq.id ∈ keys m) : keys (applyServer m S) = keys m := by
  induction S generalizing m with
  | nil => rfl
  | cons sq tl ih =>
      unfold applyServer
      rw [List.foldl_cons]
      rw [show (tl.foldl (fun m sq => mapSet m sq.id { sq with source := "server" })
            (mapSet m sq.id { sq with source := "server" })) =
          applyServer (mapSet m sq.id { sq with source := "server" }) tl from rfl]
      have h1 : sq.id ∈ keys m := h sq (List.mem_cons_self sq tl)
      have h2 : keys (mapSet m sq.id { sq with source := "server" }) = keys m :=
        keys_mapSet_of_mem m sq.id _ h1
      rw [ih, h2]
      intro q hq
      rw [h2]
      exact h q (List.mem_cons_of_mem sq hq)

theorem keysNodup_applyServer (S : List Quote) (m : QMap)
    (h : (keys m).Nodup) : (keys (applyServer m S)).Nodup := by
  induction S generalizing m with
  | nil => exact h
  | cons sq tl ih =>
      unfold applyServer
      rw [List.foldl_cons]
      exact ih _ (keysNodup_mapSet m sq.id _ h)

theorem keysNodup_applyLocal (sb : QMap) (L : List Quote) (m : QMap)
    (h : (keys m).Nodup) : (keys (applyLocal sb m L)).Nodup := by
  induction L generalizing m with
  | nil => exact h
  | cons l tl ih =>
      unfold applyLocal
      rw [List.foldl_cons]
      by_cases hb : mapHas sb l.id
      · simp only [hb, Bool.not_true, if_false]
        exact ih m h
      · simp only [hb, Bool.not_false, if_true]
        exact ih _ (keysNodup_mapSet m l.id l h)

theorem keysGood_applyServer (S : List Quote) (m : QMap)
    (h : KeysGood m) : KeysGood (applyServer m S) := by
  induction S generalizing m with
  | nil => exact h
  | cons sq tl ih =>
      unfold applyServer
      rw [List.foldl_cons]
      exact ih _ (keysGood_mapSet m sq.id _ h rfl)

theorem keysGood_applyLocal (sb : QMap) (L : List Quote) (m : QMap)
    (h : KeysGood m) : KeysGood (applyLocal sb m L) := by
  induction L generalizing m with
  | nil => exact h
  | cons l tl ih =>
      unfold applyLocal
      rw [List.foldl_cons]
      by_cases hb : mapHas sb l.id
      · simp only [hb, Bool.not_true, if_false]
        exact ih m h
      · simp only [hb, Bool.not_false, if_true]
        exact ih _ (keysGood_mapSet m l.id l h rfl)

theorem keysNodup_mapOfList (L : List Quote) : (keys (mapOfList L)).Nodup := by
  have aux : ∀ (l : List Quote) (acc : QMap), (keys acc).Nodup →
      (keys (l.foldl (fun m q => mapSet m q.id q) acc)).Nodup := by
    intro l
    induction l with
    | nil => intro acc h; exact h
    | cons q tl ih =>
        intro acc h
        rw [List.foldl_cons]
        exact ih _ (keysNodup_mapSet acc q.id q h)
  exact aux L [] (by simp [keys])

theorem keysGood_mapOfList (L : List Quote) : KeysGood (mapOfList L) := by
  have aux : ∀ (l : List Quote) (acc : QMap), KeysGood acc →
      KeysGood (l.foldl (fun m q => mapSet m q.id q) acc) := by
    intro l
    induction l with
    | nil => intro acc h; exact h
    | cons q tl ih =>
        intro acc h
        rw [List.foldl_cons]
        exact ih _ (keysGood_mapSet acc q.id q h rfl)
  exact aux L [] (by intro p hp; simp at hp)

theorem qmap_ext (m m' : QMap) (hn : (keys m).Nodup)
    (hk : keys m = keys m') (hg : ∀ k, mapGet m k = mapGet m' k) : m = m' := by
  induction m generalizing m' with
  | nil =>
      rcases m' with _ | ⟨p', t'⟩
      · rfl
      · simp [keys] at hk
  | cons p t ih =>
      rcases m' with _ | ⟨p', t'⟩
      · simp [keys] at hk
      · have hk1 : p.1 = p'.1 := by
          simp only [keys, List.map_cons] at hk
          injection hk
        have hv : p.2 = p'.2 := by
          have h1 := hg p.1
          rw [mapGet_cons, mapGet_cons] at h1
          simp only [if_pos rfl] at h1
          rw [if_pos hk1.symm] at h1
          injection h1
        have hkt : keys t = keys t' := by
          simp only [keys, List.map_cons] at hk
          injection hk
        have hnt : (keys t).Nodup := keys_nodup_tail p t hn
        have hgt : ∀ k, mapGet t k = mapGet t' k := by
          intro k
          by_cases hpk : p.1 = k
          · have hmem : k ∉ keys t := by
              rw [← hpk]
              exact (List.nodup_cons.mp (by simpa [keys] using hn)).1
            have hmem' : k ∉ keys t' := by rw [← hkt]; exact hmem
            rw [(mapGet_eq_none_iff t k).mpr hmem, (mapGet_eq_none_iff t' k).mpr hmem']
          · have h1 := hg k
            rw [mapGet_cons, mapGet_cons] at h1
            rw [if_neg hpk] at h1
            rw [if_neg (by rw [← hk1]; exact hpk)] at h1
            exact h1
        have ht : t = t' := ih t' hnt hkt hgt
        calc p :: t = (p.1, p.2) :: t := rfl
          _ = (p'.1, p'.2) :: t' := by rw [hk1, hv, ht]
          _ = p' :: t' := rfl

/-! ### Rebuilding a map from its values, and merge idempotence -/

theorem mapSet_append_of_not_mem (m : QMap) (k : String) (v : Quote)
    (h : k ∉ keys m) : mapSet m k v = m ++ [(k, v)] := by
  induction m with
  | nil => rfl
  | cons p ps ih =>
      have hpk : p.1 ≠ k := by
        intro hc; exact h (by simp [keys, hc])
      have hk : k ∉ keys ps := by
        intro hc; exact h (List.mem_cons_of_mem p.1 hc)
      rw [mapSet_cons_neg p ps k v hpk, ih hk]
      rfl

theorem keys_subset_mapSet (m : QMap) (k : String) (v : Quote) :
    keys m ⊆ keys (mapSet m k v) := by
  by_cases h : k ∈ keys m
  · rw [keys_mapSet_of_mem m k v h]
    exact fun x hx => hx
  · rw [keys_mapSet_of_not_mem m k v h]
    exact List.subset_append_left _ _

theorem self_mem_keys_mapSet (m : QMap) (k : String) (v : Quote) :
    k ∈ keys (mapSet m k v) := by
  by_cases h : k ∈ keys m
  · rw [keys_mapSet_of_mem m k v h]; exact h
  · rw [keys_mapSet_of_not_mem m k v h]; simp

theorem keys_subset_foldl_ins (l : List Quote) (acc : QMap) :
    keys acc ⊆ keys (l.foldl (fun m q => mapSet m q.id q) acc) := by
  induction l generalizing acc with
  | nil => exact fun x h => h
  | cons q tl ih =>
      rw [List.foldl_cons]
      exact fun x h => ih (mapSet acc q.id q) (keys_subset_mapSet acc q.id q h)

theorem mem_keys_mapOfList (S : List Quote) (q : Quote) (h : q ∈ S) :
    q.id ∈ keys (mapOfList S) := by
  have aux : ∀ (l : List Quote) (acc : QMap), q ∈ l →
      q.id ∈ keys (l.foldl (fun m q => mapSet m q.id q) acc) := by
    intro l
    induction l with
    | nil => intro acc h; simp at h
    | cons p tl ih =>
        intro acc hmem
        rw [List.foldl_cons]
        rcases List.mem_cons.mp hmem with h1 | h1
        · rw [h1]
          exact keys_subset_foldl_ins tl _ (self_mem_keys_mapSet acc p.id p)
        · exact ih _ h1
  exact aux S [] h

theorem foldl_ins_values (m : QMap) (hg : KeysGood m) (hn : (keys m).Nodup) :
    ∀ acc : QMap, (∀ p ∈ m, p.1 ∉ keys acc) →
      (mapValues m).foldl (fun a q => mapSet a q.id q) acc = acc ++ m := by
  induction m with
  | nil => intro acc _; simp [mapValues]
  | cons p t ih =>
      intro acc hd
      have hid : p.2.id = p.1 := hg p (List.mem_cons_self p t)
      have hnotin : p.1 ∉ keys acc := hd p (List.mem_cons_self p t)
      have hstep : mapSet acc p.2.id p.2 = acc ++ [p] := by
        rw [hid, mapSet_append_of_not_mem acc p.1 p.2 hnotin]
      have hpt : p.1 ∉ keys t := (List.nodup_cons.mp (by simpa [keys] using hn)).1
      have hg' : KeysGood t := fun r hr => hg r (List.mem_cons_of_mem p hr)
      have hn' : (keys t).Nodup := keys_nodup_tail p t hn
      have hd' : ∀ r ∈ t, r.1 ∉ keys (acc ++ [p]) := by
        intro r hr hc
        have hkeys : keys (acc ++ [p]) = keys acc ++ [p.1] := by
          simp [keys]
        rw [hkeys, List.mem_append] at hc
        rcases hc with hc | hc
        · exact hd r (List.mem_cons_of_mem p hr) hc
        · have : r.1 = p.1 := by simpa using hc
          apply hpt
          rw [← this]
          simp only [keys, List.mem_map]
          exact ⟨r, hr, rfl⟩
      have hmv : mapValues (p :: t) = p.2 :: mapValues t := rfl
      rw [hmv, List.foldl_cons, hstep, ih hg' hn' (acc ++ [p]) hd']
      simp

theorem mapOfList_values (m : QMap) (hg : KeysGood m) (hn : (keys m).Nodup) :
    mapOfList (mapValues m) = m := by
  have h := foldl_ins_values m hg hn [] (by intro p _ hc; simp [keys] at hc)
  simpa [mapOfList] using h

theorem mem_values_get (m : QMap) (hg : KeysGood m) (hn : (keys m).Nodup)
    (l : Quote) (h : l ∈ mapValues m) : mapGet m l.id = some l := by
  rcases List.mem_map.mp h with ⟨p, hp, hpl⟩
  have h1 : p.1 = l.id := by rw [← hpl]; exact (hg p hp).symm
  have h2 : (l.id, l) ∈ m := by
    have : p = (l.id, l) := by
      calc p = (p.1, p.2) := rfl
        _ = (l.id, l) := by rw [h1, hpl]
    rw [← this]; exact hp
  exact mapGet_eq_some_of_mem m l.id l hn h2

theorem foldl_fix (f : QMap → Quote → QMap) (l : List Quote) (m : QMap)
    (h : ∀ q ∈ l, f m q = m) : l.foldl f m = m := by
  induction l with
  | nil => rfl
  | cons q tl ih =>
      rw [List.foldl_cons, h q (List.mem_cons_self q tl)]
      exact ih (fun r hr => h r (List.mem_cons_of_mem q hr))

theorem applyLocal_values_fix (sb m : QMap) (hg : KeysGood m)
    (hn : (keys m).Nodup) : applyLocal sb m (mapValues m) = m := by
  unfold applyLocal
  apply foldl_fix
  intro l hl
  by_cases hb : mapHas sb l.id
  · simp [hb]
  · simp only [hb, Bool.not_false, if_true]
    exact mapSet_self m l.id l hn (mem_values_get m hg hn l hl)

theorem applyServer_self (S L : List Quote) :
    applyServer (applyLocal (mapOfList S) (applyServer (mapOfList L) S) L) S =
      applyLocal (mapOfList S) (applyServer (mapOfList L) S) L := by
  have hn2 : (keys (applyLocal (mapOfList S) (applyServer (mapOfList L) S) L)).Nodup :=
    keysNodup_applyLocal _ _ _ (keysNodup_applyServer _ _ (keysNodup_mapOfList L))
  have hget : ∀ k x, lastById S k = some x →
      mapGet (applyLocal (mapOfList S) (applyServer (mapOfList L) S) L) k =
        some { x with source := "server" } := by
    intro k x hx
    rcases lastById_mem S k x hx with ⟨hmem, hid⟩
    have hsb : mapHas (mapOfList S) k = true := by
      rw [mapHas_iff]
      rw [← hid]
      exact mem_keys_mapOfList S x hmem
    rw [mapGet_applyLocal_of_server _ _ _ _ hsb, mapGet_applyServer, hx]
  apply qmap_ext
  · exact keysNodup_applyServer _ _ hn2
  · apply keys_applyServer_of_present
    intro sq hsq
    rcases hsx : lastById S sq.id with _ | x
    · have := lastById_isSome_of_mem S sq hsq
      rw [hsx] at this; simp at this
    · rw [← mapGet_isSome_iff]
      rw [hget sq.id x hsx]
      rfl
  · intro k
    rw [mapGet_applyServer]
    rcases hx : lastById S k with _ | x
    · rfl
    · exact (hget k x hx).symm

/-- Claim C3 support: applying the same snapshot twice yields the same
collection as applying it once. -/
theorem mergeServerData_idem (S L : List Quote) (C C2 : List Conflict) :
    (mergeServerData S (mergeServerData S L C).1 C2).1 = (mergeServerData S L C).1 := by
  rw [mergeServerData_fst, mergeServerData_fst]
  have hg2 : KeysGood (applyLocal (mapOfList S) (applyServer (mapOfList L) S) L) :=
    keysGood_applyLocal _ _ _ (keysGood_applyServer _ _ (keysGood_mapOfList L))
  have hn2 : (keys (applyLocal (mapOfList S) (applyServer (mapOfList L) S) L)).Nodup :=
    keysNodup_applyLocal _ _ _ (keysNodup_applyServer _ _ (keysNodup_mapOfList L))
  rw [mapOfList_values _ hg2 hn2, applyServer_self S L,
      applyLocal_values_fix _ _ hg2 hn2]

/-! ### Characterizing the conflicts recorded by a pass -/

theorem mapHas_eq_isSome (m : QMap) (k : String) :
    mapHas m k = (mapGet m k).isSome := by
  by_cases h : k ∈ keys m
  · rw [(mapHas_iff m k).mpr h, (mapGet_isSome_iff m k).mpr h]
  · cases hb : mapHas m k with
    | true => exact absurd ((mapHas_iff m k).mp hb) h
    | false =>
        cases hs : (mapGet m k).isSome with
        | true => exact absurd ((mapGet_isSome_iff m k).mp hs) h
        | false => rfl

/-- The conflict entry (if any) that a merge or detect iteration produces
for one server record, against a fixed local map. -/
def conflictOf (lb : QMap) (sq : Quote) : Option Conflict :=
  match mapGet lb sq.id with
  | some l =>
      if l.text != sq.text || l.category != sq.category then some ⟨sq.id, l, sq⟩
      else none
  | none => none

theorem conflictOf_id (lb : QMap) (sq : Quote) (c : Conflict)
    (h : conflictOf lb sq = some c) : c.id = sq.id := by
  unfold conflictOf at h
  rcases hv : mapGet lb sq.id with _ | l
  · rw [hv] at h; exact Option.noConfusion h
  · rw [hv] at h
    have h2 : (if (l.text != sq.text || l.category != sq.category) = true
        then some (⟨sq.id, l, sq⟩ : Conflict) else none) = some c := h
    by_cases hd : (l.text != sq.text || l.category != sq.category) = true
    · rw [if_pos hd] at h2
      have h3 : (⟨sq.id, l, sq⟩ : Conflict) = c := by injection h2
      rw [← h3]
    · rw [if_neg hd] at h2; exact Option.noConfusion h2

theorem idsNodup_cons (q : Quote) (l : List Quote) (h : IdsNodup (q :: l)) :
    q.id ∉ l.map (fun q => q.id) ∧ IdsNodup l := by
  unfold IdsNodup at h
  rw [List.map_cons, List.nodup_cons] at h
  exact h

theorem mergeStep_eq (m : QMap) (cs : List Conflict) (sq : Quote) (lb : QMap)
    (hget : mapGet m sq.id = mapGet lb sq.id) :
    mergeStep (m, cs) sq =
      (mapSet m sq.id { sq with source := "server" },
       cs ++ (conflictOf lb sq).toList) := by
  unfold mergeStep conflictOf
  rcases hv : mapGet lb sq.id with _ | l
  · have hg : mapGet m sq.id = none := by rw [hget, hv]
    have hh : mapHas m sq.id = false := by
      rw [mapHas_eq_isSome, hg]; rfl
    simp [hh, hg]
  · have hg : mapGet m sq.id = some l := by rw [hget, hv]
    have hh : mapHas m sq.id = true := by
      rw [mapHas_eq_isSome, hg]; rfl
    by_cases hd : (l.text != sq.text || l.category != sq.category) = true
    · simp [hh, hg, hd]
    · simp [hh, hg, hd]

theorem foldl_mergeStep_snd (S : List Quote) (lb : QMap) :
    ∀ (m : QMap) (cs : List Conflict),
      (∀ sq ∈ S, mapGet m sq.id = mapGet lb sq.id) → IdsNodup S →
      (S.foldl mergeStep (m, cs)).2 = cs ++ S.filterMap (conflictOf lb) := by
  induction S with
  | nil => intro m cs _ _; simp
  | cons sq tl ih =>
      intro m cs hm hnd
      rcases idsNodup_cons sq tl hnd with ⟨hsq, htl⟩
      rw [List.foldl_cons, mergeStep_eq m cs sq lb (hm sq (List.mem_cons_self sq tl))]
      rw [ih (mapSet m sq.id { sq with source := "server" })
            (cs ++ (conflictOf lb sq).toList) ?_ htl]
      · rcases hc : conflictOf lb sq with _ | c
        · simp [List.filterMap_cons, hc]
        · simp [List.filterMap_cons, hc]
      · intro sq' hsq'
        rw [mapGet_mapSet]
        have hne : sq'.id ≠ sq.id := by
          intro hcq
          exact hsq (hcq ▸ (List.mem_map.mpr ⟨sq', hsq', rfl⟩))
        rw [if_neg hne]
        exact hm sq' (List.mem_cons_of_mem sq hsq')

theorem mergeServerData_snd (S L : List Quote) (C : List Conflict)
    (h : IdsNodup S) :
    (mergeServerData S L C).2 = C ++ S.filterMap (conflictOf (mapOfList L)) := by
  have h1 : (mergeServerData S L C).2 = (S.foldl mergeStep (mapOfList L, C)).2 := rfl
  rw [h1, foldl_mergeStep_snd S (mapOfList L) (mapOfList L) C (fun _ _ => rfl) h]

/-- The per-entry function of `detectConflicts`, applied to a map entry
`(id, serverRecord)`. -/
def detectFun (lb : QMap) (p : String × Quote) : Option Conflict :=
  match mapGet lb p.1 with
  | some l =>
      if l.text != p.2.text || l.category != p.2.category then some ⟨p.1, l, p.2⟩
      else none
  | none => none

theorem foldl_detectStep (lb : QMap) (entries : List (String × Quote)) :
    ∀ acc : List Conflict,
      entries.foldl (detectStep lb) acc = acc ++ entries.filterMap (detectFun lb) := by
  induction entries with
  | nil => intro acc; simp
  | cons p tl ih =>
      intro acc
      rw [List.foldl_cons]
      have hstep : detectStep lb acc p = acc ++ (detectFun lb p).toList := by
        unfold detectStep detectFun
        rcases hv : mapGet lb p.1 with _ | l
        · have hh : mapHas lb p.1 = false := by
            rw [mapHas_eq_isSome, hv]; rfl
          simp [hh, hv]
        · have hh : mapHas lb p.1 = true := by
            rw [mapHas_eq_isSome, hv]; rfl
          by_cases hd : (l.text != p.2.text || l.category != p.2.category) = true
          · simp [hh, hv, hd]
          · simp [hh, hv, hd]
      rw [hstep, ih]
      rcases hc : detectFun lb p with _ | c
      · simp [List.filterMap_cons, hc]
      · simp [List.filterMap_cons, hc]

theorem mapOfList_of_nodup (S : List Quote) (h : IdsNodup S) :
    mapOfList S = S.map (fun q => (q.id, q)) := by
  have aux : ∀ (l : List Quote) (acc : QMap),
      (∀ q ∈ l, q.id ∉ keys acc) → IdsNodup l →
      l.foldl (fun m q => mapSet m q.id q) acc = acc ++ l.map (fun q => (q.id, q)) := by
    intro l
    induction l with
    | nil => intro acc _ _; simp
    | cons q tl ih =>
        intro acc hf hnd
        rcases idsNodup_cons q tl hnd with ⟨hq, htl⟩
        rw [List.foldl_cons,
            mapSet_append_of_not_mem acc q.id q (hf q (List.mem_cons_self q tl))]
        rw [ih (acc ++ [(q.id, q)]) ?_ htl]
        · simp
        · intro q' hq' hc
          have hkeys : keys (acc ++ [(q.id, q)]) = keys acc ++ [q.id] := by
            simp [keys]
          rw [hkeys, List.mem_append] at hc
          rcases hc with hc | hc
          · exact hf q' (List.mem_cons_of_mem q hq') hc
          · have : q'.id = q.id := by simpa using hc
            exact hq (this ▸ (List.mem_map.mpr ⟨q', hq', rfl⟩))
  have h0 := aux S [] (by intro q _ hc; simp [keys] at hc) h
  simpa [mapOfList] using h0

theorem detectConflicts_eq_filterMap (S L : List Quote) (h : IdsNodup S) :
    detectConflicts S L = S.filterMap (conflictOf (mapOfList L)) := by
  unfold detectConflicts
  rw [foldl_detectStep, mapOfList_of_nodup S h, List.filterMap_map]
  simp only [List.nil_append]
  rfl

/-! ### Counting conflict entries per id -/

/-- Whether a remote map and a local map disagree at a key. -/
def conflictAtMap (sb lb : QMap) (k : String) : Bool :=
  match mapGet sb k, mapGet lb k with
  | some sq, some l => l.text != sq.text || l.category != sq.category
  | _, _ => false

theorem conflictAt_eq_map (S L : List Quote) (k : String) :
    conflictAt S L k = conflictAtMap (mapOfList S) (mapOfList L) k := rfl

theorem countConflictId_eq_zero (cs : List Conflict) (k : String)
    (h : ∀ c ∈ cs, c.id ≠ k) : countConflictId cs k = 0 := by
  unfold countConflictId
  have hnil : cs.filter (fun c => c.id == k) = [] := by
    rw [List.filter_eq_nil_iff]
    intro c hc
    have := h c hc
    simp [beq_iff_eq, this]
  rw [hnil]
  rfl

theorem countConflictId_cons (c : Conflict) (cs : List Conflict) (k : String) :
    countConflictId (c :: cs) k = (if c.id = k then 1 else 0) + countConflictId cs k := by
  unfold countConflictId
  by_cases h : c.id = k
  · have hb : (c.id == k) = true := beq_iff_eq.mpr h
    rw [if_pos h]
    simp only [List.filter_cons, hb, if_true, List.length_cons]
    omega
  · have hb : (c.id == k) = false := beq_eq_false_iff_ne.mpr h
    rw [if_neg h]
    simp [List.filter_cons, hb]

theorem countConflictId_append (cs ds : List Conflict) (k : String) :
    countConflictId (cs ++ ds) k = countConflictId cs k + countConflictId ds k := by
  unfold countConflictId
  rw [List.filter_append, List.length_append]

theorem mem_filterMap_conflictOf_id (S : List Quote) (lb : QMap) (c : Conflict)
    (h : c ∈ S.filterMap (conflictOf lb)) : c.id ∈ S.map (fun q => q.id) := by
  rcases List.mem_filterMap.mp h with ⟨sq, hsq, hc⟩
  rw [conflictOf_id lb sq c hc]
  exact List.mem_map.mpr ⟨sq, hsq, rfl⟩

theorem countConflict_filterMap (S : List Quote) (lb : QMap) (k : String)
    (h : IdsNodup S) :
    countConflictId (S.filterMap (conflictOf lb)) k =
      if conflictAtMap (mapOfList S) lb k = true then 1 else 0 := by
  induction S with
  | nil =>
      simp [countConflictId, conflictAtMap, mapOfList, mapGet]
  | cons sq tl ih =>
      rcases idsNodup_cons sq tl h with ⟨hsq, htl⟩
      have hS : mapOfList (sq :: tl) = (sq.id, sq) :: tl.map (fun q => (q.id, q)) := by
        rw [mapOfList_of_nodup (sq :: tl) h]; rfl
      have hTl : mapGet (tl.map (fun q => (q.id, q))) k = mapGet (mapOfList tl) k := by
        rw [mapOfList_of_nodup tl htl]
      rw [List.filterMap_cons]
      by_cases hk : sq.id = k
      · have hzero : countConflictId (tl.filterMap (conflictOf lb)) k = 0 := by
          apply countConflictId_eq_zero
          intro c hc hck
          apply hsq
          rw [← hk] at hck
          exact hck ▸ mem_filterMap_conflictOf_id tl lb c hc
        rcases hv : mapGet lb sq.id with _ | l
        · have hcf : conflictOf lb sq = none := by
            unfold conflictOf; rw [hv]
          have hmap : conflictAtMap (mapOfList (sq :: tl)) lb k = false := by
            unfold conflictAtMap
            rw [hS, mapGet_cons,
                if_pos (show ((sq.id, sq) : String × Quote).1 = k from hk),
                show mapGet lb k = none from hk ▸ hv]
          rw [hcf]
          show countConflictId (tl.filterMap (conflictOf lb)) k = _
          rw [hzero, hmap]
          rfl
        · have hvk : mapGet lb k = some l := hk ▸ hv
          by_cases hd : (l.text != sq.text || l.category != sq.category) = true
          · have hcf : conflictOf lb sq = some ⟨sq.id, l, sq⟩ := by
              unfold conflictOf; rw [hv]
              show (if (l.text != sq.text || l.category != sq.category) = true
                  then some (⟨sq.id, l, sq⟩ : Conflict) else none) = _
              rw [if_pos hd]
            have hmap : conflictAtMap (mapOfList (sq :: tl)) lb k = true := by
              unfold conflictAtMap
              rw [hS, mapGet_cons,
                  if_pos (show ((sq.id, sq) : String × Quote).1 = k from hk), hvk]
              exact hd
            rw [hcf]
            show countConflictId ((⟨sq.id, l, sq⟩ : Conflict) :: tl.filterMap (conflictOf lb)) k = _
            rw [countConflictId_cons, hzero, hmap]
            simp [hk]
          · have hcf : conflictOf lb sq = none := by
              unfold conflictOf; rw [hv]
              show (if (l.text != sq.text || l.category != sq.category) = true
                  then some (⟨sq.id, l, sq⟩ : Conflict) else none) = _
              rw [if_neg hd]
            have hmap : conflictAtMap (mapOfList (sq :: tl)) lb k = false := by
              unfold conflictAtMap
              rw [hS, mapGet_cons,
                  if_pos (show ((sq.id, sq) : String × Quote).1 = k from hk), hvk]
              exact Bool.eq_false_iff.mpr hd
            rw [hcf]
            show countConflictId (tl.filterMap (conflictOf lb)) k = _
            rw [hzero, hmap]
            rfl
      · have hmap : conflictAtMap (mapOfList (sq :: tl)) lb k =
            conflictAtMap (mapOfList tl) lb k := by
          unfold conflictAtMap
          rw [hS, mapGet_cons,
              if_neg (show ¬ (((sq.id, sq) : String × Quote).1 = k) from hk), hTl]
        rcases hcf : conflictOf lb sq with _ | c
        · show countConflictId (tl.filterMap (conflictOf lb)) k = _
          rw [hmap]
          exact ih htl
        · show countConflictId (c :: tl.filterMap (conflictOf lb)) k = _
          rw [countConflictId_cons]
          have hcid : ¬ (c.id = k) := by
            rw [conflictOf_id lb sq c hcf]; exact hk
          rw [if_neg hcid, hmap, ih htl, Nat.zero_add]

/-! ### The conflicts and collection produced by one sync pass -/

theorem syncFetchMerge_conflicts (S : List Quote) (s : AppState) (h : IdsNodup S) :
    (syncFetchMerge S s).1.conflicts =
      s.conflicts ++ detectConflicts S s.quotes ++ detectConflicts S s.quotes := by
  have h1 : (syncFetchMerge S s).1.conflicts =
      (mergeServerData S s.quotes
        (if (detectConflicts S s.quotes).length != 0 then
          s.conflicts ++ detectConflicts S s.quotes else s.conflicts)).2 := rfl
  rw [h1, mergeServerData_snd S s.quotes _ h, detectConflicts_eq_filterMap S s.quotes h]
  by_cases hd : ((S.filterMap (conflictOf (mapOfList s.quotes))).length != 0) = true
  · rw [if_pos hd, List.append_assoc]
  · rw [if_neg hd]
    have hl : (S.filterMap (conflictOf (mapOfList s.quotes))).length = 0 := by
      by_contra hc
      exact hd (by simpa [bne_iff_ne] using hc)
    have hnil : S.filterMap (conflictOf (mapOfList s.quotes)) = [] :=
      List.length_eq_zero.mp hl
    rw [hnil]
    simp

theorem srv_mem_merged (S L : List Quote) (C : List Conflict) (sq : Quote)
    (hS : IdsNodup S) (hmem : sq ∈ S) :
    { sq with source := "server" } ∈ (mergeServerData S L C).1 := by
  rw [mergeServerData_fst]
  have hsb : mapHas (mapOfList S) sq.id = true := by
    rw [mapHas_iff]; exact mem_keys_mapOfList S sq hmem
  have hget : mapGet (applyLocal (mapOfList S) (applyServer (mapOfList L) S) L) sq.id
      = some { sq with source := "server" } := by
    rw [mapGet_applyLocal_of_server _ _ _ _ hsb, mapGet_applyServer,
        lastById_of_nodup S sq hS hmem]
  exact List.mem_map.mpr ⟨(sq.id, { sq with source := "server" }),
    mem_of_mapGet_eq_some _ _ _ hget, rfl⟩

/-! ### Replication lemmas -/

theorem replaceFirstById_cons_pos (q : Quote) (rest : List Quote) (k : String)
    (v : Quote) (h : q.id = k) :
    replaceFirstById (q :: rest) k v = v :: rest := by
  simp [replaceFirstById, beq_iff_eq, h]

theorem replaceFirstById_cons_neg (q : Quote) (rest : List Quote) (k : String)
    (v : Quote) (h : q.id ≠ k) :
    replaceFirstById (q :: rest) k v = q :: replaceFirstById rest k v := by
  simp [replaceFirstById, beq_iff_eq, h]

theorem replaceFirstById_ids (qs : List Quote) (k : String) (v : Quote)
    (hv : v.id = k) :
    (replaceFirstById qs k v).map (fun q => q.id) = qs.map (fun q => q.id) := by
  induction qs with
  | nil => rfl
  | cons q rest ih =>
      by_cases h : q.id = k
      · have hb : (q.id == k) = true := beq_iff_eq.mpr h
        simp [replaceFirstById, hb, hv, h]
      · have hb : (q.id == k) = false := beq_eq_false_iff_ne.mpr h
        simp [replaceFirstById, hb, ih]

theorem mem_replaceFirstById_of_ne (qs : List Quote) (k : String) (v q : Quote)
    (hq : q ∈ qs) (hne : q.id ≠ k) : q ∈ replaceFirstById qs k v := by
  induction qs with
  | nil => simp at hq
  | cons p rest ih =>
      by_cases h : p.id = k
      · have hb : (p.id == k) = true := beq_iff_eq.mpr h
        simp only [replaceFirstById, hb, if_true]
        rcases List.mem_cons.mp hq with h1 | h1
        · exact absurd (by rw [h1]; exact h) hne
        · exact List.mem_cons_of_mem v h1
      · have hb : (p.id == k) = false := beq_eq_false_iff_ne.mpr h
        simp only [replaceFirstById, hb, if_false]
        rcases List.mem_cons.mp hq with h1 | h1
        · rw [h1]; exact List.mem_cons_self p (replaceFirstById rest k v)
        · exact List.mem_cons_of_mem p (ih h1)

theorem countId_cons (q : Quote) (qs : List Quote) (k : String) :
    countId (q :: qs) k = (if q.id = k then 1 else 0) + countId qs k := by
  unfold countId
  by_cases h : q.id = k
  · have hb : (q.id == k) = true := beq_iff_eq.mpr h
    rw [if_pos h]
    simp only [List.filter_cons, hb, if_true, List.length_cons]
    omega
  · have hb : (q.id == k) = false := beq_eq_false_iff_ne.mpr h
    rw [if_neg h]
    simp [List.filter_cons, hb]

theorem countId_eq_zero_iff (qs : List Quote) (k : String) :
    countId qs k = 0 ↔ ∀ q ∈ qs, q.id ≠ k := by
  induction qs with
  | nil => simp [countId]
  | cons q rest ih =>
      rw [countId_cons]
      by_cases h : q.id = k
      · simp [h]
      · rw [if_neg h, Nat.zero_add, ih]
        constructor
        · intro hz r hr
          rcases List.mem_cons.mp hr with h1 | h1
          · rw [h1]; exact h
          · exact hz r h1
        · intro hz r hr
          exact hz r (List.mem_cons_of_mem q hr)

theorem countId_of_nodup_mem (qs : List Quote) (q : Quote)
    (hn : IdsNodup qs) (hq : q ∈ qs) : countId qs q.id = 1 := by
  induction qs with
  | nil => simp at hq
  | cons p rest ih =>
      rcases idsNodup_cons p rest hn with ⟨hp, hrest⟩
      rw [countId_cons]
      rcases List.mem_cons.mp hq with h1 | h1
      · have hpq : p.id = q.id := by rw [h1]
        have hzero : countId rest q.id = 0 := by
          rw [countId_eq_zero_iff]
          intro r hr hc
          apply hp
          rw [hpq, ← hc]
          exact List.mem_map.mpr ⟨r, hr, rfl⟩
        rw [if_pos hpq, hzero]
      · have hpq : p.id ≠ q.id := by
          intro hc
          exact hp (hc ▸ List.mem_map.mpr ⟨q, h1, rfl⟩)
        rw [if_neg hpq, ih hrest h1, Nat.zero_add]

theorem countId_replaceFirstById_ne (qs : List Quote) (k K : String) (v : Quote)
    (hk : k ≠ K) (hv : v.id ≠ K) :
    countId (replaceFirstById qs k v) K = countId qs K := by
  induction qs with
  | nil => rfl
  | cons q rest ih =>
      by_cases h : q.id = k
      · rw [replaceFirstById_cons_pos q rest k v h]
        rw [countId_cons, countId_cons, if_neg hv, if_neg (by rw [h]; exact hk)]
      · rw [replaceFirstById_cons_neg q rest k v h]
        rw [countId_cons, countId_cons, ih]

theorem replaceFirstById_count_one (qs : List Quote) (K : String) (v : Quote)
    (hc : countId qs K = 1) (hv : v.id ≠ K) :
    v ∈ replaceFirstById qs K v ∧ countId (replaceFirstById qs K v) K = 0 := by
  induction qs with
  | nil => simp [countId] at hc
  | cons q rest ih =>
      rw [countId_cons] at hc
      by_cases h : q.id = K
      · rw [replaceFirstById_cons_pos q rest K v h]
        have hrest : countId rest K = 0 := by
          rw [if_pos h] at hc; omega
        constructor
        · exact List.mem_cons_self v rest
        · rw [countId_cons, if_neg hv, hrest]
      · rw [replaceFirstById_cons_neg q rest K v h]
        rw [if_neg h, Nat.zero_add] at hc
        rcases ih hc with ⟨h1, h2⟩
        constructor
        · exact List.mem_cons_of_mem q h1
        · rw [countId_cons, if_neg h, h2]

theorem replicate_foldl_mem (post : String → Option String) (now : String)
    (ts : List Quote) :
    ∀ acc : List Quote × List Quote, ∀ q : Quote, q ∈ acc.1 →
      (∀ t ∈ ts, t.id ≠ q.id) →
      q ∈ (ts.foldl (replicateOne post now) acc).1 := by
  induction ts with
  | nil => intro acc q hq _; exact hq
  | cons t tl ih =>
      intro acc q hq hne
      rw [List.foldl_cons]
      apply ih
      · unfold replicateOne
        rcases hp : post t.id with _ | cid
        · exact hq
        · exact mem_replaceFirstById_of_ne acc.1 t.id _ q hq
            (fun hc => hne t (List.mem_cons_self t tl) hc.symm)
      · intro t' ht'; exact hne t' (List.mem_cons_of_mem t ht')

theorem replicate_foldl_count (post : String → Option String) (now : String)
    (K : String) (ts : List Quote) :
    ∀ acc : List Quote × List Quote,
      (∀ t ∈ ts, t.id ≠ K) →
      (∀ t ∈ ts, ∀ r, post t.id = some r → r ≠ K) →
      countId (ts.foldl (replicateOne post now) acc).1 K = countId acc.1 K := by
  induction ts with
  | nil => intro acc _ _; rfl
  | cons t tl ih =>
      intro acc hne hr
      rw [List.foldl_cons]
      rw [ih _ (fun t' ht' => hne t' (List.mem_cons_of_mem t ht'))
            (fun t' ht' => hr t' (List.mem_cons_of_mem t ht'))]
      unfold replicateOne
      rcases hp : post t.id with _ | cid
      · rfl
      · show countId (replaceFirstById acc.1 t.id _ ) K = countId acc.1 K
        exact countId_replaceFirstById_ne acc.1 t.id K _
          (hne t (List.mem_cons_self t tl))
          (hr t (List.mem_cons_self t tl) cid hp)

/-! ### Per-record behavior of the replicating stage -/

theorem syncReplicate_per_record (post : String → Option String) (now : String)
    (s : AppState) (hn : IdsNodup s.quotes)
    (hpost : ∀ a r, post a = some r → strStartsWith r "local-" = false)
    (lq : Quote) (hmem : lq ∈ s.quotes)
    (hloc : strStartsWith lq.id "local-" = true) :
    (post lq.id = none → lq ∈ (syncReplicate post now s).quotes) ∧
    (∀ cid, post lq.id = some cid →
      { id := cid, text := lq.text, category := lq.category,
        updatedAt := now, source := "server" } ∈ (syncReplicate post now s).quotes ∧
      lq.id ∉ (syncReplicate post now s).quotes.map (fun q => q.id)) := by
  have hquotes : (syncReplicate post now s).quotes =
      ((localOnlyOf s.quotes).foldl (replicateOne post now) (s.quotes, s.stored)).1 := rfl
  have hlo : lq ∈ localOnlyOf s.quotes := by
    unfold localOnlyOf
    rw [List.mem_filter]
    exact ⟨hmem, hloc⟩
  have hnl : IdsNodup (localOnlyOf s.quotes) :=
    List.Nodup.sublist ((List.filter_sublist s.quotes).map (fun q => q.id)) hn
  rcases List.append_of_mem hlo with ⟨before, after, hsplit⟩
  have hlocal_of_mem : ∀ t ∈ localOnlyOf s.quotes,
      strStartsWith t.id "local-" = true := by
    intro t ht
    exact (List.mem_filter.mp ht).2
  have hidsplit : (before.map (fun q => q.id) ++
      lq.id :: after.map (fun q => q.id)).Nodup := by
    have h0 : IdsNodup (before ++ lq :: after) := hsplit ▸ hnl
    unfold IdsNodup at h0
    simpa using h0
  have h1 : lq.id ∉ before.map (fun q => q.id) := by
    intro hc
    rw [List.nodup_append] at hidsplit
    exact hidsplit.2.2 hc (List.mem_cons_self _ _)
  have h2 : lq.id ∉ after.map (fun q => q.id) := by
    rw [List.nodup_append] at hidsplit
    exact (List.nodup_cons.mp hidsplit.2.1).1
  have hbefore_mem : ∀ t ∈ before, t ∈ localOnlyOf s.quotes := by
    intro t ht; rw [hsplit]; exact List.mem_append_left _ ht
  have hafter_mem : ∀ t ∈ after, t ∈ localOnlyOf s.quotes := by
    intro t ht; rw [hsplit]
    exact List.mem_append_right _ (List.mem_cons_of_mem lq ht)
  have hbefore_ne : ∀ t ∈ before, t.id ≠ lq.id := by
    intro t ht hc
    exact h1 (hc ▸ List.mem_map.mpr ⟨t, ht, rfl⟩)
  have hafter_ne : ∀ t ∈ after, t.id ≠ lq.id := by
    intro t ht hc
    exact h2 (hc ▸ List.mem_map.mpr ⟨t, ht, rfl⟩)
  have hpostK : ∀ (t : Quote), ∀ r, post t.id = some r → r ≠ lq.id := by
    intro t r hr hc
    have h3 := hpost t.id r hr
    rw [hc, hloc] at h3
    exact Bool.noConfusion h3
  rw [hquotes, hsplit, List.foldl_append, List.foldl_cons]
  have hcnt1 : countId (before.foldl (replicateOne post now) (s.quotes, s.stored)).1
      lq.id = 1 := by
    rw [replicate_foldl_count post now lq.id before (s.quotes, s.stored) hbefore_ne
          (fun t ht => hpostK t)]
    exact countId_of_nodup_mem s.quotes lq hn hmem
  have hmem1 : lq ∈ (before.foldl (replicateOne post now) (s.quotes, s.stored)).1 :=
    replicate_foldl_mem post now before (s.quotes, s.stored) lq hmem hbefore_ne
  constructor
  · intro hp
    have hstep : replicateOne post now
        (before.foldl (replicateOne post now) (s.quotes, s.stored)) lq =
        before.foldl (replicateOne post now) (s.quotes, s.stored) := by
      unfold replicateOne; rw [hp]
    rw [hstep]
    exact replicate_foldl_mem post now after _ lq hmem1 hafter_ne
  · intro cid hp
    have hcidlocal : strStartsWith cid "local-" = false := hpost lq.id cid hp
    have hvne : cid ≠ lq.id := by
      intro hc
      rw [hc, hloc] at hcidlocal
      exact Bool.noConfusion hcidlocal
    have hstep : replicateOne post now
        (before.foldl (replicateOne post now) (s.quotes, s.stored)) lq =
        (replaceFirstById (before.foldl (replicateOne post now) (s.quotes, s.stored)).1
           lq.id { id := cid, text := lq.text, category := lq.category,
                   updatedAt := now, source := "server" },
         replaceFirstById (before.foldl (replicateOne post now) (s.quotes, s.stored)).1
           lq.id { id := cid, text := lq.text, category := lq.category,
                   updatedAt := now, source := "server" }) := by
      unfold replicateOne; rw [hp]
      rfl
    rcases replaceFirstById_count_one
        (before.foldl (replicateOne post now) (s.quotes, s.stored)).1 lq.id
        { id := cid, text := lq.text, category := lq.category,
          updatedAt := now, source := "server" } hcnt1 hvne with ⟨hvmem, hzero⟩
    rw [hstep]
    constructor
    · apply replicate_foldl_mem post now after _ _ hvmem
      intro t ht hc
      have h4 := hlocal_of_mem t (hafter_mem t ht)
      rw [hc] at h4
      have h5 : strStartsWith cid "local-" = true := h4
      rw [hcidlocal] at h5
      exact Bool.noConfusion h5
    · have hz2 : countId ((after.foldl (replicateOne post now)
          (replaceFirstById (before.foldl (replicateOne post now)
              (s.quotes, s.stored)).1 lq.id
            { id := cid, text := lq.text, category := lq.category,
              updatedAt := now, source := "server" },
           replaceFirstById (before.foldl (replicateOne post now)
              (s.quotes, s.stored)).1 lq.id
            { id := cid, text := lq.text, category := lq.category,
              updatedAt := now, source := "server" })).1) lq.id = 0 := by
        rw [replicate_foldl_count post now lq.id after _ hafter_ne
              (fun t ht => hpostK t)]
        exact hzero
      intro hc
      rcases List.mem_map.mp hc with ⟨q, hq, hqid⟩
      exact (countId_eq_zero_iff _ _).mp hz2 q hq hqid

/-! ### Id uniqueness of merge and resolution -/

theorem mapValues_ids (m : QMap) (hg : KeysGood m) :
    (mapValues m).map (fun q => q.id) = keys m := by
  unfold mapValues keys
  rw [List.map_map]
  exact List.map_congr_left (fun p hp => hg p hp)

theorem mergeServerData_idsNodup (S L : List Quote) (C : List Conflict) :
    IdsNodup (mergeServerData S L C).1 := by
  rw [mergeServerData_fst]
  unfold IdsNodup
  rw [mapValues_ids _
    (keysGood_applyLocal _ _ _ (keysGood_applyServer _ _ (keysGood_mapOfList L)))]
  exact keysNodup_applyLocal _ _ _ (keysNodup_applyServer _ _ (keysNodup_mapOfList L))

theorem applyConflictChoice_none (i : Nat) (choice now : String) (s : AppState)
    (h : s.conflicts[i]? = none) :
    applyConflictChoice i choice now s = (s, []) := by
  unfold applyConflictChoice
  rw [h]

theorem applyConflictChoice_some_server (i : Nat) (now : String) (s : AppState)
    (c : Conflict) (h : s.conflicts[i]? = some c) :
    applyConflictChoice i "server" now s =
      ({ s with conflicts := s.conflicts.eraseIdx i, stored := s.quotes },
       [Notification.conflictResolved]) := by
  unfold applyConflictChoice
  rw [h]
  rfl

theorem applyConflictChoice_some_local (i : Nat) (now : String) (s : AppState)
    (c : Conflict) (h : s.conflicts[i]? = some c) :
    applyConflictChoice i "local" now s =
      ({ quotes := if s.quotes.any (fun q => q.id == c.id) then
            replaceFirstById s.quotes c.id
              { c.localVer with source := "local", updatedAt := now }
          else s.quotes ++ [{ c.localVer with source := "local", updatedAt := now }],
         conflicts := s.conflicts.eraseIdx i,
         stored := if s.quotes.any (fun q => q.id == c.id) then
            replaceFirstById s.quotes c.id
              { c.localVer with source := "local", updatedAt := now }
          else s.quotes ++ [{ c.localVer with source := "local", updatedAt := now }] },
       [Notification.conflictResolved]) := by
  unfold applyConflictChoice
  rw [h]
  rfl

theorem applyConflictChoice_other (i : Nat) (choice now : String) (s : AppState)
    (c : Conflict) (h : s.conflicts[i]? = some c)
    (h1 : choice ≠ "server") (h2 : choice ≠ "local") :
    applyConflictChoice i choice now s = (s, []) := by
  unfold applyConflictChoice
  rw [h]
  show (if (choice == "server") = true then _ else
    if (choice == "local") = true then _ else (s, [])) = (s, [])
  rw [if_neg (by simp [beq_iff_eq, h1]), if_neg (by simp [beq_iff_eq, h2])]

theorem applyConflictChoice_idsNodup (i : Nat) (choice now : String) (s : AppState)
    (hn : IdsNodup s.quotes)
    (hwf : ∀ c ∈ s.conflicts, c.localVer.id = c.id) :
    IdsNodup (applyConflictChoice i choice now s).1.quotes := by
  rcases hc : s.conflicts[i]? with _ | c
  · rw [applyConflictChoice_none i choice now s hc]
    exact hn
  · have hcwf : c.localVer.id = c.id := hwf c (List.getElem?_mem hc)
    by_cases h1 : choice = "server"
    · rw [h1, applyConflictChoice_some_server i now s c hc]
      exact hn
    · by_cases h2 : choice = "local"
      · rw [h2, applyConflictChoice_some_local i now s c hc]
        show IdsNodup (if (s.quotes.any fun q => q.id == c.id) = true then
            replaceFirstById s.quotes c.id
              { c.localVer with source := "local", updatedAt := now }
          else s.quotes ++ [{ c.localVer with source := "local", updatedAt := now }])
        by_cases h3 : (s.quotes.any fun q => q.id == c.id) = true
        · rw [if_pos h3]
          unfold IdsNodup
          rw [replaceFirstById_ids s.quotes c.id
                { c.localVer with source := "local", updatedAt := now } hcwf]
          exact hn
        · rw [if_neg h3]
          unfold IdsNodup
          rw [List.map_append, List.nodup_append]
          refine ⟨hn, List.nodup_singleton _, ?_⟩
          intro a ha hb
          have hax : a = c.localVer.id := by simpa using hb
          have hfalse : (s.quotes.any fun q => q.id == c.id) = false :=
            Bool.eq_false_iff.mpr h3
          rcases List.mem_map.mp ha with ⟨q, hq, hqid⟩
          have hbq : (q.id == c.id) = true :=
            beq_iff_eq.mpr (by rw [hqid, hax, hcwf])
          exact List.any_eq_false.mp hfalse q hq hbq
      · rw [applyConflictChoice_other i choice now s c hc h1 h2]
        exact hn

/-! ### Claim theorems -/

/-- C3: merge is idempotent on the collection: for every remote snapshot `S`
and local collection `L`, merging `S` into the result of merging `S` into
`L` yields the same merged collection as merging once —
`merge(S, merge(S, L)) == merge(S, L)` — whatever the ledger holds at
either pass. -/
theorem claim_C3_merge_idempotent (S L : List Quote) (C C2 : List Conflict) :
    (mergeServerData S (mergeServerData S L C).1 C2).1 = (mergeServerData S L C).1 :=
  mergeServerData_idem S L C C2

/-- C4: if the fetch step of a sync cycle fails, the cycle aborts before any
mutation: the collection, the conflict ledger and the persisted copy all
equal their pre-cycle values, and a sync-error notification is emitted. -/
theorem claim_C4_fetch_failure_aborts (post : String → Option String)
    (now : String) (s : AppState) :
    syncWithServer none post now s = (s, [Notification.syncError]) := rfl

/-- C10: the snapshot handed to the merge holds exactly `min(n, 20)`
records — the first 20 posts of the response in order — so posts beyond the
first 20 never reach the merge. -/
theorem claim_C10_fetch_truncates (posts : List Post) (now : String) :
    (fetchServerQuotes posts now).length = min posts.length 20 ∧
    ∀ i, i < 20 → (fetchServerQuotes posts now)[i]? =
      (posts[i]?).map (quoteOfPost now) := by
  constructor
  · unfold fetchServerQuotes
    rw [List.length_map, List.length_take, Nat.min_comm]
  · intro i hi
    unfold fetchServerQuotes
    rw [List.getElem?_map, List.getElem?_take, if_pos hi]

/-- C10 witness: a concrete 2-post response maps to 2 records, elementwise. -/
theorem claim_C10_fetch_truncates_witness :
    (fetchServerQuotes [⟨1, "a", 2⟩, ⟨3, "b", 4⟩] "t").length = min 2 20 ∧
    (fetchServerQuotes [⟨1, "a", 2⟩, ⟨3, "b", 4⟩] "t")[0]? =
      (([⟨1, "a", 2⟩, ⟨3, "b", 4⟩] : List Post)[0]?).map (quoteOfPost "t") :=
  ⟨(claim_C10_fetch_truncates [⟨1, "a", 2⟩, ⟨3, "b", 4⟩] "t").1,
   (claim_C10_fetch_truncates [⟨1, "a", 2⟩, ⟨3, "b", 4⟩] "t").2 0 (by decide)⟩

/-- C9 counterexample: with one cycle already past Idle (suspended at its
fetch), a new trigger is not dropped: it starts a second concurrent cycle. -/
theorem claim_C9_counterexample :
    triggerSync [CyclePhase.fetching] = [CyclePhase.fetching, CyclePhase.fetching] ∧
    (triggerSync [CyclePhase.fetching]).length = 2 ∧
    triggerSyncSpec [CyclePhase.fetching] = [CyclePhase.fetching] :=
  ⟨rfl, rfl, rfl⟩

/-- C9 (amended): the source consults no guard flag: every trigger starts a
cycle immediately, so a trigger arriving while a cycle is in flight
produces at least two concurrent cycles, diverging from the drop policy. -/
theorem claim_C9_amended (active : List CyclePhase) (h : active ≠ []) :
    2 ≤ (triggerSync active).length ∧ triggerSync active ≠ triggerSyncSpec active := by
  constructor
  · unfold triggerSync
    rw [List.length_append]
    have h1 : 1 ≤ active.length := List.length_pos.mpr h
    simp only [List.length_singleton]
    omega
  · unfold triggerSync triggerSyncSpec
    rw [if_neg (by simp [h])]
    intro hc
    have h2 := congrArg List.length hc
    rw [List.length_append] at h2
    simp at h2

/-- C9 witness: the amended theorem at one in-flight cycle. -/
theorem claim_C9_amended_witness :
    2 ≤ (triggerSync [CyclePhase.fetching]).length ∧
    triggerSync [CyclePhase.fetching] ≠ triggerSyncSpec [CyclePhase.fetching] :=
  claim_C9_amended [CyclePhase.fetching] (by simp)

/-- C7 counterexample: resolving with a stale index (no pending entry at
index 3) does not fail with IndexOutOfRange: the operation returns normally
with the state unchanged and no notification or error of any kind. -/
theorem claim_C7_counterexample :
    applyConflictChoice 3 "local" "t"
      { quotes := [{ id := "1", text := "A", category := "X",
                     updatedAt := "t0", source := "local" }],
        conflicts := [], stored := [] } =
    ({ quotes := [{ id := "1", text := "A", category := "X",
                    updatedAt := "t0", source := "local" }],
       conflicts := [], stored := [] }, []) := rfl

/-- C7 (amended): for every index that does not reference a pending entry,
the resolve operation is a silent no-op: neither the Record Store nor the
Conflict Ledger is modified and nothing is emitted (the source just
returns; no IndexOutOfRange error exists). -/
theorem claim_C7_amended (i : Nat) (choice now : String) (s : AppState)
    (h : s.conflicts[i]? = none) :
    applyConflictChoice i choice now s = (s, []) :=
  applyConflictChoice_none i choice now s h

/-- C7 witness: the amended theorem at a concrete empty ledger. -/
theorem claim_C7_amended_witness :
    (([] : List Conflict)[0]? = (none : Option Conflict)) ∧
    applyConflictChoice 0 "server" "t"
      { quotes := [], conflicts := [], stored := [] } =
      ({ quotes := [], conflicts := [], stored := [] }, []) :=
  ⟨rfl, claim_C7_amended 0 "server" "t"
    { quotes := [], conflicts := [], stored := [] } rfl⟩

/-- C1 counterexample: one sync pass over a single remote record whose id
exists locally with differing text appends TWO conflict entries to the
ledger (one from the detection step, one from the merge loop), not exactly
one. -/
theorem claim_C1_counterexample :
    ((syncFetchMerge
        [{ id := "1", text := "B", category := "X", updatedAt := "t1",
           source := "server" }]
        { quotes := [{ id := "1", text := "A", category := "X",
                       updatedAt := "t0", source := "local" }],
          conflicts := [], stored := [] }).1.conflicts).length = 2 := by
  decide

/-- C1 (amended): during a sync pass over a duplicate-free remote snapshot,
every id present in both collections with differing text or category gets
exactly TWO conflict entries appended to the ledger — one recorded by the
pre-merge detection step and one by the merge itself — every other id gets
none, and the merged collection contains the remote version of every
snapshot record with origin remote. -/
theorem claim_C1_amended (S : List Quote) (s : AppState) (hS : IdsNodup S) :
    (∀ k, conflictAt S s.quotes k = true →
      countConflictId (syncFetchMerge S s).1.conflicts k =
        countConflictId s.conflicts k + 2) ∧
    (∀ k, conflictAt S s.quotes k = false →
      countConflictId (syncFetchMerge S s).1.conflicts k =
        countConflictId s.conflicts k) ∧
    (∀ sq ∈ S, { sq with source := "server" } ∈ (syncFetchMerge S s).1.quotes) := by
  have hconf := syncFetchMerge_conflicts S s hS
  have hcount : ∀ k, countConflictId (syncFetchMerge S s).1.conflicts k =
      countConflictId s.conflicts k +
        2 * (if conflictAt S s.quotes k = true then 1 else 0) := by
    intro k
    rw [hconf, countConflictId_append, countConflictId_append,
        detectConflicts_eq_filterMap S s.quotes hS,
        countConflict_filterMap S _ k hS, conflictAt_eq_map]
    by_cases hcm : conflictAtMap (mapOfList S) (mapOfList s.quotes) k = true
    · rw [if_pos hcm]
    · rw [if_neg hcm]
  refine ⟨?_, ?_, ?_⟩
  · intro k hk
    rw [hcount k, hk]
    simp
  · intro k hk
    rw [hcount k, hk]
    simp
  · intro sq hsq
    have hq : (syncFetchMerge S s).1.quotes =
        (mergeServerData S s.quotes
          (if (detectConflicts S s.quotes).length != 0 then
            s.conflicts ++ detectConflicts S s.quotes else s.conflicts)).1 := rfl
    rw [hq]
    exact srv_mem_merged S s.quotes _ sq hS hsq

/-- C1 witness: the amended theorem on the one-conflict scenario of the
counterexample: the conflicting id gets two entries, a fresh id gets none,
and the merged collection holds the remote version. -/
theorem claim_C1_amended_witness :
    IdsNodup [{ id := "1", text := "B", category := "X", updatedAt := "t1",
                source := "server" }] ∧
    conflictAt
      [{ id := "1", text := "B", category := "X", updatedAt := "t1",
         source := "server" }]
      [{ id := "1", text := "A", category := "X", updatedAt := "t0",
         source := "local" }] "1" = true ∧
    countConflictId ((syncFetchMerge
      [{ id := "1", text := "B", category := "X", updatedAt := "t1",
         source := "server" }]
      { quotes := [{ id := "1", text := "A", category := "X",
                     updatedAt := "t0", source := "local" }],
        conflicts := [], stored := [] }).1.conflicts) "1" =
      countConflictId [] "1" + 2 := by
  refine ⟨by decide, by decide, ?_⟩
  exact (claim_C1_amended
    [{ id := "1", text := "B", category := "X", updatedAt := "t1",
       source := "server" }]
    { quotes := [{ id := "1", text := "A", category := "X",
                   updatedAt := "t0", source := "local" }],
      conflicts := [], stored := [] } (by decide)).1 "1" (by decide)

/-- C2 counterexample: starting from a duplicate-free store holding a
server record with id "101" and a local record, a successful submit that
assigns the already-present remote id "101" rewrites the local record in
place and leaves two records sharing id "101". -/
theorem claim_C2_counterexample :
    IdsNodup [({ id := "101", text := "S", category := "X", updatedAt := "t0",
                 source := "server" } : Quote),
              { id := "local-1", text := "B", category := "Y", updatedAt := "t0",
                source := "local" }] ∧
    ¬ IdsNodup (syncReplicate (fun _ => some "101") "t2"
        { quotes := [{ id := "101", text := "S", category := "X",
                       updatedAt := "t0", source := "server" },
                     { id := "local-1", text := "B", category := "Y",
                       updatedAt := "t0", source := "local" }],
          conflicts := [], stored := [] }).quotes := by
  refine ⟨by decide, by decide⟩

/-- C2 (amended): id uniqueness is an invariant of the merge pass
(unconditionally re-established) and of conflict resolution (for a ledger
whose entries store a local version carrying the entry's own id, as all
entries produced by the system do); the in-place rewrite during replication
does not preserve it in general — see the counterexample. -/
theorem claim_C2_amended :
    (∀ S L C, IdsNodup (mergeServerData S L C).1) ∧
    (∀ i choice now s, IdsNodup (AppState.quotes s) →
      (∀ c ∈ AppState.conflicts s, c.localVer.id = c.id) →
      IdsNodup (applyConflictChoice i choice now s).1.quotes) :=
  ⟨mergeServerData_idsNodup,
   fun i choice now s hn hwf => applyConflictChoice_idsNodup i choice now s hn hwf⟩

/-- C2 witness: the resolution part of the amended theorem at a concrete
one-conflict state. -/
theorem claim_C2_amended_witness :
    IdsNodup (AppState.quotes
      { quotes := [{ id := "1", text := "B", category := "X",
                     updatedAt := "t1", source := "server" }],
        conflicts := [⟨"1",
          { id := "1", text := "A", category := "X", updatedAt := "t0",
            source := "local" },
          { id := "1", text := "B", category := "X", updatedAt := "t1",
            source := "server" }⟩],
        stored := [] }) ∧
    IdsNodup ((applyConflictChoice 0 "local" "t2"
      { quotes := [{ id := "1", text := "B", category := "X",
                     updatedAt := "t1", source := "server" }],
        conflicts := [⟨"1",
          { id := "1", text := "A", category := "X", updatedAt := "t0",
            source := "local" },
          { id := "1", text := "B", category := "X", updatedAt := "t1",
            source := "server" }⟩],
        stored := [] }).1.quotes) :=
  ⟨by decide,
   claim_C2_amended.2 0 "local" "t2" _ (by decide) (by decide)⟩

/-! ### Resolution effect lemmas and claim C5 -/

theorem self_mem_replaceFirstById (qs : List Quote) (k : String) (v : Quote)
    (h : qs.any (fun q => q.id == k) = true) : v ∈ replaceFirstById qs k v := by
  induction qs with
  | nil => simp at h
  | cons q rest ih =>
      by_cases hq : q.id = k
      · rw [replaceFirstById_cons_pos q rest k v hq]
        exact List.mem_cons_self v rest
      · rw [replaceFirstById_cons_neg q rest k v hq]
        have h2 : rest.any (fun q => q.id == k) = true := by
          rcases List.any_eq_true.mp h with ⟨r, hr, hrk⟩
          rcases List.mem_cons.mp hr with h3 | h3
          · exact absurd (beq_iff_eq.mp (h3 ▸ hrk)) hq
          · exact List.any_eq_true.mpr ⟨r, h3, hrk⟩
        exact List.mem_cons_of_mem q (ih h2)

theorem mem_replaceFirstById_cases (qs : List Quote) (k : String) (v q : Quote)
    (h : q ∈ replaceFirstById qs k v) : q ∈ qs ∨ q = v := by
  induction qs with
  | nil => simp [replaceFirstById] at h
  | cons p rest ih =>
      by_cases hp : p.id = k
      · rw [replaceFirstById_cons_pos p rest k v hp] at h
        rcases List.mem_cons.mp h with h1 | h1
        · exact Or.inr h1
        · exact Or.inl (List.mem_cons_of_mem p h1)
      · rw [replaceFirstById_cons_neg p rest k v hp] at h
        rcases List.mem_cons.mp h with h1 | h1
        · exact Or.inl (h1 ▸ List.mem_cons_self p rest)
        · rcases ih h1 with h2 | h2
          · exact Or.inl (List.mem_cons_of_mem p h2)
          · exact Or.inr h2

theorem countId_append (qs rs : List Quote) (k : String) :
    countId (qs ++ rs) k = countId qs k + countId rs k := by
  unfold countId
  rw [List.filter_append, List.length_append]

theorem countId_replaceFirstById_same (qs : List Quote) (K : String) (v : Quote)
    (hv : v.id = K) : countId (replaceFirstById qs K v) K = countId qs K := by
  induction qs with
  | nil => rfl
  | cons q rest ih =>
      by_cases h : q.id = K
      · rw [replaceFirstById_cons_pos q rest K v h, countId_cons, countId_cons,
            if_pos h, if_pos hv]
      · rw [replaceFirstById_cons_neg q rest K v h, countId_cons, countId_cons,
            if_neg h, ih]

theorem replaceFirstById_unique (qs : List Quote) (K : String) (v : Quote)
    (hc : countId qs K = 1) (_hv : v.id = K) :
    ∀ q ∈ replaceFirstById qs K v, q.id = K → q = v := by
  induction qs with
  | nil => intro q hq; simp [replaceFirstById] at hq
  | cons p rest ih =>
      rw [countId_cons] at hc
      by_cases hp : p.id = K
      · rw [if_pos hp] at hc
        have hrest : countId rest K = 0 := by omega
        rw [replaceFirstById_cons_pos p rest K v hp]
        intro q hq hqid
        rcases List.mem_cons.mp hq with h1 | h1
        · exact h1
        · exact absurd hqid ((countId_eq_zero_iff rest K).mp hrest q h1)
      · rw [if_neg hp, Nat.zero_add] at hc
        rw [replaceFirstById_cons_neg p rest K v hp]
        intro q hq hqid
        rcases List.mem_cons.mp hq with h1 | h1
        · exact absurd (h1 ▸ hqid) hp
        · exact ih hc q h1 hqid

/-- C5: for a pending entry at index i (in a store satisfying the id
uniqueness invariant, the entry carrying its own id as all system-produced
entries do), keep-local overwrites the record with the entry's id by the
stored local version (origin reset to local, updatedAt refreshed to now):
afterwards the restored version is present, every record carrying that id
IS the restored version and exactly one such record exists (the previously
stored record under that id is gone), no other record is touched, the
version is appended when no record with the id exists, and the entry is
removed from the ledger; keep-remote removes the entry and leaves the
collection unchanged. -/
theorem claim_C5_resolution (i : Nat) (now : String) (s : AppState) (c : Conflict)
    (h : s.conflicts[i]? = some c) (hn : IdsNodup s.quotes)
    (hwf : c.localVer.id = c.id) :
    ((applyConflictChoice i "local" now s).1.conflicts = s.conflicts.eraseIdx i ∧
     { c.localVer with source := "local", updatedAt := now } ∈
        (applyConflictChoice i "local" now s).1.quotes ∧
     (∀ q ∈ (applyConflictChoice i "local" now s).1.quotes, q.id = c.id →
        q = { c.localVer with source := "local", updatedAt := now }) ∧
     countId (applyConflictChoice i "local" now s).1.quotes c.id = 1 ∧
     (∀ q ∈ s.quotes, q.id ≠ c.id → q ∈ (applyConflictChoice i "local" now s).1.quotes) ∧
     (∀ q ∈ (applyConflictChoice i "local" now s).1.quotes,
        q ∈ s.quotes ∨ q = { c.localVer with source := "local", updatedAt := now }) ∧
     ((∀ q ∈ s.quotes, q.id ≠ c.id) →
        (applyConflictChoice i "local" now s).1.quotes =
          s.quotes ++ [{ c.localVer with source := "local", updatedAt := now }])) ∧
    ((applyConflictChoice i "server" now s).1.quotes = s.quotes ∧
     (applyConflictChoice i "server" now s).1.conflicts = s.conflicts.eraseIdx i) := by
  rw [applyConflictChoice_some_local i now s c h,
      applyConflictChoice_some_server i now s c h]
  refine ⟨⟨rfl, ?_, ?_, ?_, ?_, ?_, ?_⟩, rfl, rfl⟩
  · show { c.localVer with source := "local", updatedAt := now } ∈
      (if s.quotes.any (fun q => q.id == c.id) then
        replaceFirstById s.quotes c.id
          { c.localVer with source := "local", updatedAt := now }
      else s.quotes ++ [{ c.localVer with source := "local", updatedAt := now }])
    by_cases hA : (s.quotes.any fun q => q.id == c.id) = true
    · rw [if_pos hA]
      exact self_mem_replaceFirstById s.quotes c.id _ hA
    · rw [if_neg hA]
      exact List.mem_append_right _ (List.mem_cons_self _ _)
  · intro q hq hqid
    revert hq
    show q ∈ (if s.quotes.any (fun q => q.id == c.id) then
        replaceFirstById s.quotes c.id
          { c.localVer with source := "local", updatedAt := now }
      else s.quotes ++ [{ c.localVer with source := "local", updatedAt := now }]) → _
    by_cases hA : (s.quotes.any fun q => q.id == c.id) = true
    · rw [if_pos hA]
      intro hq
      rcases List.any_eq_true.mp hA with ⟨r, hr, hrk⟩
      have hrK : r.id = c.id := beq_iff_eq.mp hrk
      have hcnt : countId s.quotes c.id = 1 := by
        have h1 := countId_of_nodup_mem s.quotes r hn hr
        rw [hrK] at h1
        exact h1
      exact replaceFirstById_unique s.quotes c.id
        { c.localVer with source := "local", updatedAt := now } hcnt hwf q hq hqid
    · rw [if_neg hA]
      intro hq
      rcases List.mem_append.mp hq with h1 | h1
      · exact absurd (beq_iff_eq.mpr hqid)
          (List.any_eq_false.mp (Bool.eq_false_iff.mpr hA) q h1)
      · simpa using h1
  · show countId (if s.quotes.any (fun q => q.id == c.id) then
        replaceFirstById s.quotes c.id
          { c.localVer with source := "local", updatedAt := now }
      else s.quotes ++ [{ c.localVer with source := "local", updatedAt := now }])
        c.id = 1
    by_cases hA : (s.quotes.any fun q => q.id == c.id) = true
    · rw [if_pos hA]
      rcases List.any_eq_true.mp hA with ⟨r, hr, hrk⟩
      have hrK : r.id = c.id := beq_iff_eq.mp hrk
      have hcnt : countId s.quotes c.id = 1 := by
        have h1 := countId_of_nodup_mem s.quotes r hn hr
        rw [hrK] at h1
        exact h1
      rw [countId_replaceFirstById_same s.quotes c.id
            { c.localVer with source := "local", updatedAt := now } hwf, hcnt]
    · rw [if_neg hA]
      have hz : countId s.quotes c.id = 0 := by
        rw [countId_eq_zero_iff]
        intro q hq hqid
        exact List.any_eq_false.mp (Bool.eq_false_iff.mpr hA) q hq
          (beq_iff_eq.mpr hqid)
      rw [countId_append, hz, countId_cons, if_pos hwf]
      rfl
  · intro q hq hne
    show q ∈ (if s.quotes.any (fun q => q.id == c.id) then
        replaceFirstById s.quotes c.id
          { c.localVer with source := "local", updatedAt := now }
      else s.quotes ++ [{ c.localVer with source := "local", updatedAt := now }])
    by_cases hA : (s.quotes.any fun q => q.id == c.id) = true
    · rw [if_pos hA]
      exact mem_replaceFirstById_of_ne s.quotes c.id _ q hq hne
    · rw [if_neg hA]
      exact List.mem_append_left _ hq
  · intro q hq
    revert hq
    show q ∈ (if s.quotes.any (fun q => q.id == c.id) then
        replaceFirstById s.quotes c.id
          { c.localVer with source := "local", updatedAt := now }
      else s.quotes ++ [{ c.localVer with source := "local", updatedAt := now }]) → _
    by_cases hA : (s.quotes.any fun q => q.id == c.id) = true
    · rw [if_pos hA]
      intro hq
      exact mem_replaceFirstById_cases s.quotes c.id _ q hq
    · rw [if_neg hA]
      intro hq
      rcases List.mem_append.mp hq with h1 | h1
      · exact Or.inl h1
      · exact Or.inr (by simpa using h1)
  · intro hall
    have hA : (s.quotes.any fun q => q.id == c.id) = false := by
      rw [List.any_eq_false]
      intro q hq hbq
      exact hall q hq (beq_iff_eq.mp hbq)
    show (if s.quotes.any (fun q => q.id == c.id) then
        replaceFirstById s.quotes c.id
          { c.localVer with source := "local", updatedAt := now }
      else s.quotes ++ [{ c.localVer with source := "local", updatedAt := now }]) = _
    rw [hA]
    simp

/-- C5 witness: the theorem at a concrete one-entry ledger over a
duplicate-free one-record store, hypotheses discharged by evaluation
(keep-remote part shown). -/
theorem claim_C5_resolution_witness :
    (([⟨"1", { id := "1", text := "A", category := "X", updatedAt := "t0",
               source := "local" },
             { id := "1", text := "B", category := "X", updatedAt := "t1",
               source := "server" }⟩] : List Conflict)[0]? =
      some ⟨"1", { id := "1", text := "A", category := "X", updatedAt := "t0",
                   source := "local" },
                 { id := "1", text := "B", category := "X", updatedAt := "t1",
                   source := "server" }⟩) ∧
    IdsNodup [({ id := "1", text := "B", category := "X", updatedAt := "t1",
                 source := "server" } : Quote)] ∧
    (⟨"1", { id := "1", text := "A", category := "X", updatedAt := "t0",
             source := "local" },
           { id := "1", text := "B", category := "X", updatedAt := "t1",
             source := "server" }⟩ : Conflict).localVer.id = "1" ∧
    ((applyConflictChoice 0 "server" "t2"
        { quotes := [{ id := "1", text := "B", category := "X",
                       updatedAt := "t1", source := "server" }],
          conflicts := [⟨"1",
            { id := "1", text := "A", category := "X", updatedAt := "t0",
              source := "local" },
            { id := "1", text := "B", category := "X", updatedAt := "t1",
              source := "server" }⟩],
          stored := [] }).1.quotes =
       [{ id := "1", text := "B", category := "X", updatedAt := "t1",
          source := "server" }] ∧
     (applyConflictChoice 0 "server" "t2"
        { quotes := [{ id := "1", text := "B", category := "X",
                       updatedAt := "t1", source := "server" }],
          conflicts := [⟨"1",
            { id := "1", text := "A", category := "X", updatedAt := "t0",
              source := "local" },
            { id := "1", text := "B", category := "X", updatedAt := "t1",
              source := "server" }⟩],
          stored := [] }).1.conflicts =
       ([⟨"1", { id := "1", text := "A", category := "X", updatedAt := "t0",
                 source := "local" },
              { id := "1", text := "B", category := "X", updatedAt := "t1",
                source := "server" }⟩] : List Conflict).eraseIdx 0) :=
  ⟨rfl, by decide, rfl, (claim_C5_resolution 0 "t2"
    { quotes := [{ id := "1", text := "B", category := "X",
                   updatedAt := "t1", source := "server" }],
      conflicts := [⟨"1",
        { id := "1", text := "A", category := "X", updatedAt := "t0",
          source := "local" },
        { id := "1", text := "B", category := "X", updatedAt := "t1",
          source := "server" }⟩],
      stored := [] }
    ⟨"1", { id := "1", text := "A", category := "X", updatedAt := "t0",
            source := "local" },
          { id := "1", text := "B", category := "X", updatedAt := "t1",
            source := "server" }⟩ rfl (by decide) rfl).2⟩

/-! ### Claim C6: outbound replication -/

/-- C6 counterexample: a record with origin local but a remote-namespace id
("7", as keep-local resolution produces) is never submitted: with a remote
that would accept any submission, the replicating step selects nothing and
leaves the store untouched, the record still local-origin under its old
id. -/
theorem claim_C6_counterexample :
    ({ id := "7", text := "A", category := "X", updatedAt := "t0",
       source := "local" } : Quote).source = "local" ∧
    localOnlyOf [{ id := "7", text := "A", category := "X", updatedAt := "t0",
                   source := "local" }] = [] ∧
    (syncReplicate (fun _ => some "101") "t1"
      { quotes := [{ id := "7", text := "A", category := "X",
                     updatedAt := "t0", source := "local" }],
        conflicts := [], stored := [] }) =
      { quotes := [{ id := "7", text := "A", category := "X",
                     updatedAt := "t0", source := "local" }],
        conflicts := [], stored := [] } :=
  ⟨rfl, by decide, by decide⟩

/-- C6 (amended): the replicating step submits exactly the records whose id
starts with "local-" (not every record of local origin).  For a
duplicate-free store and a remote that assigns ids outside the local
namespace: a selected record whose submit succeeds is rewritten in place to
the remote-assigned id with origin remote and a fresh timestamp, and its
old local id no longer appears in the store; a selected record whose submit
fails is left completely unchanged, and the failure affects no other
record's submission. -/
theorem claim_C6_amended (post : String → Option String) (now : String)
    (s : AppState) (hn : IdsNodup s.quotes)
    (hpost : ∀ a r, post a = some r → strStartsWith r "local-" = false)
    (lq : Quote) (hmem : lq ∈ s.quotes)
    (hloc : strStartsWith lq.id "local-" = true) :
    (post lq.id = none → lq ∈ (syncReplicate post now s).quotes) ∧
    (∀ cid, post lq.id = some cid →
      { id := cid, text := lq.text, category := lq.category,
        updatedAt := now, source := "server" } ∈ (syncReplicate post now s).quotes ∧
      lq.id ∉ (syncReplicate post now s).quotes.map (fun q => q.id)) :=
  syncReplicate_per_record post now s hn hpost lq hmem hloc

/-- C6 witness: the amended theorem for one local-only record whose submit
is answered with remote id "101". -/
theorem claim_C6_amended_witness :
    ({ id := "101", text := "B", category := "Y", updatedAt := "t1",
       source := "server" } : Quote) ∈
      (syncReplicate (fun _ => some "101") "t1"
        { quotes := [{ id := "local-1", text := "B", category := "Y",
                       updatedAt := "t0", source := "local" }],
          conflicts := [], stored := [] }).quotes ∧
    "local-1" ∉ ((syncReplicate (fun _ => some "101") "t1"
        { quotes := [{ id := "local-1", text := "B", category := "Y",
                       updatedAt := "t0", source := "local" }],
          conflicts := [], stored := [] }).quotes.map (fun q => q.id)) :=
  (claim_C6_amended (fun _ => some "101") "t1"
    { quotes := [{ id := "local-1", text := "B", category := "Y",
                   updatedAt := "t0", source := "local" }],
      conflicts := [], stored := [] }
    (by decide)
    (fun a r h => by
      injection h with h2
      rw [← h2]
      decide)
    { id := "local-1", text := "B", category := "Y", updatedAt := "t0",
      source := "local" }
    (by decide) (by decide)).2 "101" rfl

/-! ### Claim C8: bulk import validation -/

/-- The record the import loop pushes for a valid item: fresh local id,
trimmed fields, origin local. -/
def importedQuote (mkId : Nat → String) (now : String) (n : Nat)
    (t c : String) : Quote :=
  { id := mkId n, text := strTrim t, category := strTrim c,
    updatedAt := now, source := "local" }

theorem importStep_invalid (mkId : Nat → String) (now : String)
    (acc : List Quote × Nat) (item : Option ImportedItem)
    (h : isStringItem item = false) : importStep mkId now acc item = acc := by
  rcases item with _ | ⟨otext, ocat⟩
  · rfl
  · rcases otext with _ | t
    · rfl
    · rcases ocat with _ | c
      · rfl
      · exfalso
        unfold isStringItem at h
        simp at h

theorem importStep_valid (mkId : Nat → String) (now : String)
    (acc : List Quote × Nat) (it : ImportedItem) (t c : String)
    (ht : it.text = some t) (hc : it.category = some c) :
    importStep mkId now acc (some it) =
      (acc.1 ++ [importedQuote mkId now acc.2 t c], acc.2 + 1) := by
  rcases it with ⟨otext, ocat⟩
  have ht2 : otext = some t := ht
  have hc2 : ocat = some c := hc
  subst ht2
  subst hc2
  rfl

theorem importFold_spec (mkId : Nat → String) (now : String)
    (items : List (Option ImportedItem)) :
    ∀ acc : List Quote × Nat,
      (items.foldl (importStep mkId now) acc).2 =
        acc.2 + (items.filter isStringItem).length ∧
      (items.foldl (importStep mkId now) acc).1.length =
        acc.1.length + (items.filter isStringItem).length ∧
      (∀ q ∈ acc.1, q ∈ (items.foldl (importStep mkId now) acc).1) ∧
      (∀ it t c, some it ∈ items → it.text = some t → it.category = some c →
        ∃ q ∈ (items.foldl (importStep mkId now) acc).1,
          q.text = strTrim t ∧ q.category = strTrim c ∧ q.source = "local") := by
  induction items with
  | nil =>
      intro acc
      refine ⟨by simp, by simp, fun q hq => hq, ?_⟩
      intro it t c hmem
      simp at hmem
  | cons item tl ih =>
      intro acc
      rw [List.foldl_cons]
      by_cases hv : isStringItem item = true
      · rcases item with _ | ⟨ot0, oc0⟩
        · exfalso; unfold isStringItem at hv; simp at hv
        · rcases ot0 with _ | t0
          · exfalso; unfold isStringItem at hv; simp at hv
          · rcases oc0 with _ | c0
            · exfalso; unfold isStringItem at hv; simp at hv
            · rw [importStep_valid mkId now acc ⟨some t0, some c0⟩ t0 c0 rfl rfl]
              rcases ih (acc.1 ++ [importedQuote mkId now acc.2 t0 c0],
                  acc.2 + 1) with ⟨ih1, ih2, ih3, ih4⟩
              have hfil : (((some ⟨some t0, some c0⟩ : Option ImportedItem)
                    :: tl).filter isStringItem).length =
                  (tl.filter isStringItem).length + 1 := by
                rw [List.filter_cons, if_pos hv]
                rfl
              refine ⟨?_, ?_, ?_, ?_⟩
              · rw [ih1, hfil]
                omega
              · rw [ih2, List.length_append, hfil]
                simp only [List.length_singleton]
                omega
              · intro q hq
                exact ih3 q (List.mem_append_left _ hq)
              · intro it t c hmem ht hc
                rcases List.mem_cons.mp hmem with h1 | h1
                · have hit : it = ⟨some t0, some c0⟩ := by injection h1
                  have htt : t = t0 := by
                    have h2 : some t = some t0 := by rw [← ht, hit]
                    injection h2
                  have hcc : c = c0 := by
                    have h2 : some c = some c0 := by rw [← hc, hit]
                    injection h2
                  refine ⟨importedQuote mkId now acc.2 t0 c0,
                    ih3 _ (List.mem_append_right _ (List.mem_cons_self _ _)),
                    ?_, ?_, rfl⟩
                  · rw [htt]; rfl
                  · rw [hcc]; rfl
                · exact ih4 it t c h1 ht hc
      · have hv' : isStringItem item = false := Bool.eq_false_iff.mpr hv
        rw [importStep_invalid mkId now acc item hv']
        rcases ih acc with ⟨ih1, ih2, ih3, ih4⟩
        have hfil : ((item :: tl).filter isStringItem) = tl.filter isStringItem := by
          rw [List.filter_cons, if_neg hv]
        refine ⟨by rw [ih1, hfil], by rw [ih2, hfil], ih3, ?_⟩
        intro it t c hmem ht hc
        rcases List.mem_cons.mp hmem with h1 | h1
        · exfalso
          rw [← h1] at hv'
          unfold isStringItem at hv'
          have hv2 : (it.text.isSome && it.category.isSome) = false := hv'
          rw [ht, hc] at hv2
          simp at hv2
        · exact ih4 it t c h1 ht hc

/-- C8 counterexample: an item whose text is the empty string (and category
a non-empty string) is admitted into the Record Store — the code only
checks `typeof === 'string'`, not non-emptiness — so "admitted iff
non-empty" is false. -/
theorem claim_C8_counterexample :
    importFromJson [some ⟨some "", some "X"⟩] (fun n => "local-" ++ toString n)
      "t" [] =
    ([{ id := "local-0", text := "", category := "X", updatedAt := "t",
        source := "local" }], 1) := by
  decide

/-- C8 (amended): an item is admitted iff it is non-null and its text and
category are both strings — empty or all-whitespace strings included; every
other item is silently skipped, the reported count equals the number of
admitted items, the store grows by exactly that count, and every admitted
item lands with trimmed text and category and origin local. -/
theorem claim_C8_amended (items : List (Option ImportedItem))
    (mkId : Nat → String) (now : String) (quotes : List Quote) :
    (importFromJson items mkId now quotes).2 = (items.filter isStringItem).length ∧
    (importFromJson items mkId now quotes).1.length =
      quotes.length + (items.filter isStringItem).length ∧
    (∀ it t c, some it ∈ items → it.text = some t → it.category = some c →
      ∃ q ∈ (importFromJson items mkId now quotes).1,
        q.text = strTrim t ∧ q.category = strTrim c ∧ q.source = "local") := by
  rcases importFold_spec mkId now items (quotes, 0) with ⟨h1, h2, _, h4⟩
  exact ⟨by simpa using h1, by simpa using h2, h4⟩

/-- C8 witness: the amended theorem applied to a single valid item with
padded text. -/
theorem claim_C8_amended_witness :
    ∃ q ∈ (importFromJson [some ⟨some " hi ", some "X"⟩]
        (fun n => "local-" ++ toString n) "t" []).1,
      q.text = strTrim " hi " ∧ q.category = strTrim "X" ∧ q.source = "local" :=
  (claim_C8_amended [some ⟨some " hi ", some "X"⟩]
    (fun n => "local-" ++ toString n) "t" []).2.2
    ⟨some " hi ", some "X"⟩ " hi " "X" (by decide) rfl rfl
